import Mathlib

/-!
Verification development for the rank-subdeps dependency reporting tool.

The definitions below are a shallow embedding of the JavaScript source:
`makeId`, `getApproxPathSize`, `collectSubtreeStats`,
`collectAggregateApproxBytes`, `isOutdatedNode`, `collectOutdatedMarkers`,
`getEffectiveSortDirection`, `getPublishTimestamp`, `getResultsComparator`,
and the result-record construction loop of `main`.  Mutable JS state (the
path-size cache, the visited id set) is threaded explicitly; machine
numbers are `Nat`/`Int`; JS `null`/`undefined` is `Option`.
-/

/-- JS `makeId`: `name@(version || 'UNKNOWN')`; a missing or empty version
string is replaced by the UNKNOWN sentinel. -/
def makeId (name : String) (version : Option String) : String :=
  name ++ "@" ++ (match version with
    | some v => if v = "" then "UNKNOWN" else v
    | none => "UNKNOWN")

/-- A node of the npm `ls --all --json --long` tree: optional `version`,
optional install `path`, and a `dependencies` object mapping child edge
names to child nodes.  (A JS `null` child behaves exactly like a node with
no fields, so children are modelled as plain nodes.) -/
inductive DependencyNode : Type where
  | mk (version : Option String) (path : Option String)
       (deps : List (String × DependencyNode))

def DependencyNode.version : DependencyNode → Option String
  | .mk v _ _ => v

def DependencyNode.path : DependencyNode → Option String
  | .mk _ p _ => p

def DependencyNode.deps : DependencyNode → List (String × DependencyNode)
  | .mk _ _ d => d

/-- Identity key of a tree entry (an edge name together with the node it
leads to). -/
def entryId (e : String × DependencyNode) : String :=
  makeId e.1 e.2.version

mutual
/-- Weight of a node: one plus the weight of all its descendants.  Used as
the termination measure of the worklist traversals. -/
def nodeWeight : DependencyNode → Nat
  | .mk _ _ deps => 1 + depsWeight deps

/-- Total weight of a dependency list. -/
def depsWeight : List (String × DependencyNode) → Nat
  | [] => 0
  | (_, t) :: rest => nodeWeight t + depsWeight rest
end

mutual
/-- All (edge name, node) entries of the subtree rooted at an entry,
the entry itself included; the specification-side notion of everything
reachable through `dependencies` edges. -/
def entrySub : String → DependencyNode → List (String × DependencyNode)
  | n, .mk v p deps => (n, .mk v p deps) :: depsSub deps

/-- Entries of the subtrees hanging off a dependency list. -/
def depsSub : List (String × DependencyNode) → List (String × DependencyNode)
  | [] => []
  | (n, t) :: rest => entrySub n t ++ depsSub rest
end

/-- Distinct identity keys appearing in the subtree of an entry. -/
def entryIds (n : String) (t : DependencyNode) : Finset String :=
  ((entrySub n t).map entryId).toFinset

/-- One filesystem object, as the estimator's `lstat`/`readdir` walk sees
it: a regular file with a byte size, a directory with named entries, a
symbolic link (whose resolved target content is carried along purely so
that theorems can speak about what the estimator must NOT count), or any
other kind of object (fifo, socket, ...). -/
inductive FSEntry : Type where
  | file (size : Nat)
  | dir (entries : List (String × FSEntry))
  | symlink (target : FSEntry)
  | other

/-- The ambient filesystem: what `lstat` finds at an absolute path, `none`
when the path cannot be stat'd (missing, permission error). -/
def FileSystem : Type := String → Option FSEntry

mutual
/-- Byte total the `getApproxPathSize` stack walk accumulates for one
filesystem object: file sizes are added, directories are descended into,
symbolic links are skipped without following (`stat.isSymbolicLink()`
⇒ `continue`), everything else contributes nothing. -/
def entrySize : FSEntry → Nat
  | .file sz => sz
  | .dir entries => entriesSize entries
  | .symlink _ => 0
  | .other => 0

/-- Byte total of the entries of one directory. -/
def entriesSize : List (String × FSEntry) → Nat
  | [] => 0
  | (_, e) :: rest => entrySize e + entriesSize rest
end

/-- Size the walk computes below an absolute path: 0 when the path cannot
be stat'd. -/
def pathTotal (fs : FileSystem) (p : String) : Nat :=
  match fs p with
  | none => 0
  | some e => entrySize e

/-- The memoization cache `pathSizeCache`: an association list from
absolute path to computed byte total. -/
def SizeCache : Type := List (String × Nat)

/-- JS `getApproxPathSize(path, pathSizeCache)`: 0 for a missing/empty
path, otherwise the memoized total if present, otherwise the stack walk's
total, which is then recorded in the cache. -/
def getApproxPathSize (fs : FileSystem) (path : Option String)
    (cache : SizeCache) : Nat × SizeCache :=
  match path with
  | none => (0, cache)
  | some p =>
    if p = "" then (0, cache)
    else
      match List.lookup p cache with
      | some v => (v, cache)
      | none => (pathTotal fs p, (p, pathTotal fs p) :: cache)

/-- Value `getApproxPathSize` returns on a cache miss; what a consistent
cache must store. -/
def jsPathSize (fs : FileSystem) (path : Option String) : Nat :=
  match path with
  | none => 0
  | some p => if p = "" then 0 else pathTotal fs p

/-- Every value stored in the cache is the true walk total of its path;
holds for the empty cache and is preserved by the estimator. -/
def Consistent (fs : FileSystem) (cache : SizeCache) : Prop :=
  ∀ p v, List.lookup p cache = some v → v = pathTotal fs p

/-- The outdated marker set `collectOutdatedMarkers` builds: a set of
absolute install paths and a set of identity keys.  (Real canonical
absolute paths are modelled as plain strings; `resolve` on an already
canonical absolute path is the identity.) -/
structure OutdatedMarkers : Type where
  paths : List String
  ids : List String

/-- JS `isOutdatedNode(name, node, outdatedMarkers)`: false when the
marker set is null; otherwise a path match (non-empty `node.path` found in
the path set) wins, falling back to an identity-key match. -/
def isOutdatedNode (name : String) (t : DependencyNode)
    (markers : Option OutdatedMarkers) : Bool :=
  match markers with
  | none => false
  | some m =>
    (match t.path with
     | some p => decide (p ≠ "") && m.paths.contains p
     | none => false)
    || m.ids.contains (makeId name t.version)

/-- Weight of a whole worklist: the termination measure of the traversal
loops (each stack frame carries an edge name, a node and its depth). -/
def stackWeight (stack : List (String × DependencyNode × Nat)) : Nat :=
  (stack.map (fun s => nodeWeight s.2.1)).sum

theorem depsWeight_eq_sum (l : List (String × DependencyNode)) :
    depsWeight l = (l.map (fun e => nodeWeight e.2)).sum := by
  induction l with
  | nil => simp [depsWeight]
  | cons e rest ih => cases e; simp [depsWeight, ih]

theorem nodeWeight_pos (t : DependencyNode) : 0 < nodeWeight t := by
  cases t; simp [nodeWeight]

theorem stackWeight_cons (n : String) (t : DependencyNode) (d : Nat)
    (rest : List (String × DependencyNode × Nat)) :
    stackWeight ((n, t, d) :: rest) = nodeWeight t + stackWeight rest := by
  simp [stackWeight]

theorem stackWeight_children (t : DependencyNode) (d : Nat)
    (rest : List (String × DependencyNode × Nat)) :
    stackWeight ((t.deps.map (fun e => (e.1, e.2, d + 1))).reverse ++ rest)
      + 1 = nodeWeight t + stackWeight rest := by
  cases t with
  | mk v p deps =>
    simp only [stackWeight, List.map_append, List.sum_append,
      List.map_reverse, List.sum_reverse, List.map_map, nodeWeight,
      DependencyNode.deps]
    have : (deps.map ((fun s => nodeWeight s.2.1) ∘
        fun e => (e.1, e.2, d + 1))).sum = depsWeight deps := by
      rw [depsWeight_eq_sum]; rfl
    omega

/-- The first-visit list of the shared worklist traversal: pops the stack,
skips entries whose identity key was already seen, and on a first visit
records the entry and pushes its children (in reversed source order, the
LIFO pop order of the JS array stack). -/
def visitLoop : List (String × DependencyNode × Nat) → Finset String →
    List (String × DependencyNode × Nat)
  | [], _ => []
  | (n, t, d) :: rest, seen =>
    if makeId n t.version ∈ seen then visitLoop rest seen
    else (n, t, d) ::
      visitLoop ((t.deps.map (fun e => (e.1, e.2, d + 1))).reverse ++ rest)
        (insert (makeId n t.version) seen)
termination_by stack _ => stackWeight stack
decreasing_by
  · have := nodeWeight_pos t
    rw [stackWeight_cons]; omega
  · have := stackWeight_children t d rest
    rw [stackWeight_cons]; omega

/-- JS `collectSubtreeStats` worklist (the loop body of lines 254-267):
threads the visited id set, the outdated counter, the byte total and the
path-size cache. -/
def statsLoop (fs : FileSystem) (markers : Option OutdatedMarkers) :
    List (String × DependencyNode × Nat) → Finset String → Nat → Nat →
    SizeCache → Finset String × Nat × Nat × SizeCache
  | [], seen, outdated, bytes, cache => (seen, outdated, bytes, cache)
  | (n, t, d) :: rest, seen, outdated, bytes, cache =>
    if makeId n t.version ∈ seen then
      statsLoop fs markers rest seen outdated bytes cache
    else
      let sized := getApproxPathSize fs t.path cache
      statsLoop fs markers
        ((t.deps.map (fun e => (e.1, e.2, d + 1))).reverse ++ rest)
        (insert (makeId n t.version) seen)
        (if 0 < d ∧ isOutdatedNode n t markers then outdated + 1
         else outdated)
        (bytes + sized.1) sized.2
termination_by stack _ _ _ _ => stackWeight stack
decreasing_by
  · have := nodeWeight_pos t
    rw [stackWeight_cons]; omega
  · have := stackWeight_children t d rest
    rw [stackWeight_cons]; omega

/-- The per-package statistics record of `collectSubtreeStats`. -/
structure SubtreeStats : Type where
  subdeps : Nat
  outdatedSubdeps : Nat
  approxBytes : Nat
deriving DecidableEq, Repr

/-- JS `collectSubtreeStats(name, node, pathSizeCache, outdatedMarkers)`:
zero stats for a missing node, otherwise the worklist traversal seeded
with the top-level entry at depth 0; `subdeps` is `max 0 (seen.size - 1)`
(truncated subtraction on `Nat`). -/
def collectSubtreeStats (fs : FileSystem) (name : String)
    (node : Option DependencyNode) (cache : SizeCache)
    (markers : Option OutdatedMarkers) : SubtreeStats × SizeCache :=
  match node with
  | none => (⟨0, 0, 0⟩, cache)
  | some t =>
    let r := statsLoop fs markers [(name, t, 0)] ∅ 0 0 cache
    (⟨r.1.card - 1, r.2.1, r.2.2.1⟩, r.2.2.2)

/-- JS `collectAggregateApproxBytes` worklist (lines 322-334): a single
shared visited set across all top-level roots, accumulating one global
byte total. -/
def aggLoop (fs : FileSystem) :
    List (String × DependencyNode × Nat) → Finset String → Nat →
    SizeCache → Nat × SizeCache
  | [], _, total, cache => (total, cache)
  | (n, t, d) :: rest, seen, total, cache =>
    if makeId n t.version ∈ seen then aggLoop fs rest seen total cache
    else
      let sized := getApproxPathSize fs t.path cache
      aggLoop fs
        ((t.deps.map (fun e => (e.1, e.2, d + 1))).reverse ++ rest)
        (insert (makeId n t.version) seen) (total + sized.1) sized.2
termination_by stack _ _ _ => stackWeight stack
decreasing_by
  · have := nodeWeight_pos t
    rw [stackWeight_cons]; omega
  · have := stackWeight_children t d rest
    rw [stackWeight_cons]; omega

/-- JS `collectAggregateApproxBytes(tree, topDepNames, pathSizeCache)`:
seeds one worklist with every top-level name found in the tree (reversed
here because the JS array stack pops the last pushed root first) and
returns the deduplicated grand total. -/
def collectAggregateApproxBytes (fs : FileSystem) (tree : DependencyNode)
    (topDepNames : List String) (cache : SizeCache) : Nat × SizeCache :=
  let roots := topDepNames.filterMap
    (fun n => (List.lookup n tree.deps).map (fun t => (n, t, 0)))
  aggLoop fs roots.reverse ∅ 0 cache

/-- A loosely structured JSON-ish value, the shape `npm outdated --json`
may produce. -/
inductive Jsonish : Type where
  | str (s : String)
  | num (n : Int)
  | booly (b : Bool)
  | null
  | arr (items : List Jsonish)
  | obj (fields : List (String × Jsonish))

/-- First field of an object with the given key, when it is a string. -/
def Jsonish.getStr (j : Jsonish) (key : String) : Option String :=
  match j with
  | .obj fields =>
    match List.lookup key fields with
    | some (.str s) => some s
    | _ => none
  | _ => none

/-- Whether an object carries the given key with a literal null value. -/
def Jsonish.hasNullField (j : Jsonish) (key : String) : Bool :=
  match j with
  | .obj fields =>
    match List.lookup key fields with
    | some .null => true
    | _ => false
  | _ => false

/-- JS `resolve(root, location)`: an absolute location stands by itself, a
relative one is joined below the root. -/
def resolvePath (root loc : String) : String :=
  if loc.startsWith "/" then loc else root ++ "/" ++ loc

/-- JS duck test of `collectOutdatedMarkers`: an outdated entry is any
object with a string `current` and (a string `latest`, or a string
`wanted`, or an explicitly null `latest`). -/
def isOutdatedEntry (j : Jsonish) : Bool :=
  (j.getStr "current").isSome &&
    ((j.getStr "latest").isSome || (j.getStr "wanted").isSome ||
      j.hasNullField "latest")

mutual
/-- Recursive body of `collectOutdatedMarkers`: walks the JSON value with
the parent object key as a name hint, collects `name@current` identity
keys and resolved `location` paths of every entry found, and recurses into
all nested objects and arrays. -/
def visitOutdated (root : String) : Jsonish → Option String →
    OutdatedMarkers → OutdatedMarkers
  | .arr items, _, acc => visitOutdatedList root items acc
  | .obj fields, keyHint, acc =>
    let j := Jsonish.obj fields
    let acc1 :=
      if isOutdatedEntry j then
        let acc' :=
          match (match j.getStr "name" with
                 | some n => some n
                 | none => keyHint) with
          | some name =>
            { acc with
              ids := acc.ids ++
                [makeId name (j.getStr "current")] }
          | none => acc
        match j.getStr "location" with
        | some loc =>
          if loc = "" then acc'
          else { acc' with paths := acc'.paths ++ [resolvePath root loc] }
        | none => acc'
      else acc
    visitOutdatedFields root fields acc1
  | _, _, acc => acc

/-- Array branch of the walk: every item is visited with no name hint. -/
def visitOutdatedList (root : String) : List Jsonish → OutdatedMarkers →
    OutdatedMarkers
  | [], acc => acc
  | item :: rest, acc =>
    visitOutdatedList root rest (visitOutdated root item none acc)

/-- Object branch of the walk: every object- or array-valued field is
visited with the field key as the name hint. -/
def visitOutdatedFields (root : String) : List (String × Jsonish) →
    OutdatedMarkers → OutdatedMarkers
  | [], acc => acc
  | (k, v) :: rest, acc =>
    let acc' :=
      match v with
      | .arr items => visitOutdated root (.arr items) (some k) acc
      | .obj fields => visitOutdated root (.obj fields) (some k) acc
      | _ => acc
    visitOutdatedFields root rest acc'
end

/-- JS `collectOutdatedMarkers(root, outdatedJson)`: empty marker sets for
a null or non-object dataset, otherwise the recursive walk seeded with the
whole dataset. -/
def collectOutdatedMarkers (root : String) (outdatedJson : Option Jsonish) :
    OutdatedMarkers :=
  match outdatedJson with
  | none => ⟨[], []⟩
  | some j =>
    match j with
    | .obj fields => visitOutdated root (.obj fields) none ⟨[], []⟩
    | .arr items => visitOutdated root (.arr items) none ⟨[], []⟩
    | _ => ⟨[], []⟩

/-- The user-facing result row assembled by `main`. -/
structure ResultRecord : Type where
  name : String
  wanted : String
  installed : String
  lastUpdated : Option String
  types : List String
  subdeps : Nat
  outdatedSubdeps : Option Nat
  approxBytes : Nat
deriving DecidableEq, Repr

/-- JS `getEffectiveSortDirection(sortMode, direction)`: an explicit
`asc`/`desc` wins, name sorts ascending by default, everything else
descending. -/
def getEffectiveSortDirection (sortMode : String)
    (direction : Option String) : String :=
  if direction = some "asc" then "asc"
  else if direction = some "desc" then "desc"
  else if sortMode = "name" then "asc" else "desc"

/-- JS `getPublishTimestamp(value)`: null for a missing or empty string,
otherwise `Date.parse` (modelled as an abstract parser returning a finite
timestamp or nothing). -/
def getPublishTimestamp (dateParse : String → Option Int)
    (value : Option String) : Option Int :=
  match value with
  | none => none
  | some s => if s = "" then none else dateParse s

/-- JS `a.name.localeCompare(b.name)` modelled on the lexicographic string
order, normalized to -1/0/1. -/
def localeCmp (a b : String) : Int :=
  if a < b then -1 else if b < a then 1 else 0

/-- JS `x || y` on comparator numbers: the first value unless it is 0. -/
def jsOr (x y : Int) : Int := if x = 0 then y else x

/-- JS `getResultsComparator(sortMode, direction)` applied to two records:
all four sort modes with their direction handling and tie-break chains. -/
def getResultsComparator (dateParse : String → Option Int)
    (sortMode : String) (direction : Option String)
    (a b : ResultRecord) : Int :=
  let asc := getEffectiveSortDirection sortMode direction = "asc"
  if sortMode = "publish" then
    match getPublishTimestamp dateParse a.lastUpdated,
          getPublishTimestamp dateParse b.lastUpdated with
    | none, none =>
      jsOr ((b.subdeps : Int) - (a.subdeps : Int))
        (jsOr ((b.approxBytes : Int) - (a.approxBytes : Int))
          (localeCmp a.name b.name))
    | none, some _ => 1
    | some _, none => -1
    | some x, some y =>
      jsOr (if asc then x - y else y - x)
        (jsOr ((b.subdeps : Int) - (a.subdeps : Int))
          (jsOr ((b.approxBytes : Int) - (a.approxBytes : Int))
            (localeCmp a.name b.name)))
  else if sortMode = "size" then
    jsOr (if asc then (a.approxBytes : Int) - (b.approxBytes : Int)
          else (b.approxBytes : Int) - (a.approxBytes : Int))
      (jsOr ((b.subdeps : Int) - (a.subdeps : Int))
        (localeCmp a.name b.name))
  else if sortMode = "name" then
    jsOr (if asc then localeCmp a.name b.name else localeCmp b.name a.name)
      (jsOr ((b.subdeps : Int) - (a.subdeps : Int))
        ((b.approxBytes : Int) - (a.approxBytes : Int)))
  else
    jsOr (if asc then (a.subdeps : Int) - (b.subdeps : Int)
          else (b.subdeps : Int) - (a.subdeps : Int))
      (jsOr ((b.approxBytes : Int) - (a.approxBytes : Int))
        (localeCmp a.name b.name))

/-- Metadata `main` keeps per declared top-level package: the dependency
type tags it occurred under and the effective wanted range. -/
structure TopMeta : Type where
  types : List String
  wanted : String
deriving DecidableEq

/-- Body of `main`'s result loop for one declared package: the
NOT INSTALLED record when the package is absent from the installed tree,
otherwise a record built from `collectSubtreeStats`; outdated counts are
null-propagated when the outdated dataset was unavailable. -/
def buildResult (fs : FileSystem) (tree : DependencyNode)
    (outdatedCountsAvailable : Bool) (markers : Option OutdatedMarkers)
    (lastUpdatedByPackage : String → Option String) (cache : SizeCache)
    (name : String) (meta : TopMeta) : ResultRecord × SizeCache :=
  let types := ["prod", "dev", "optional", "peer"].filter
    (fun t => meta.types.contains t)
  match List.lookup name tree.deps with
  | none =>
    (⟨name, meta.wanted, "NOT INSTALLED", lastUpdatedByPackage name, types,
      0, if outdatedCountsAvailable then some 0 else none, 0⟩, cache)
  | some node =>
    let r := collectSubtreeStats fs name (some node) cache markers
    (⟨name, meta.wanted,
      (match node.version with
       | some v => if v = "" then "UNKNOWN" else v
       | none => "UNKNOWN"),
      lastUpdatedByPackage name, types, r.1.subdeps,
      if outdatedCountsAvailable then some r.1.outdatedSubdeps else none,
      r.1.approxBytes⟩, r.2)

/-- The whole result loop of `main`, threading the shared path-size
cache through the per-package calls. -/
def buildResults (fs : FileSystem) (tree : DependencyNode)
    (outdatedCountsAvailable : Bool) (markers : Option OutdatedMarkers)
    (lastUpdatedByPackage : String → Option String) :
    List (String × TopMeta) → SizeCache → List ResultRecord × SizeCache
  | [], cache => ([], cache)
  | (n, m) :: rest, cache =>
    let r := buildResult fs tree outdatedCountsAvailable markers
      lastUpdatedByPackage cache n m
    let rs := buildResults fs tree outdatedCountsAvailable markers
      lastUpdatedByPackage rest r.2
    (r.1 :: rs.1, rs.2)

/-- The report assembly of `main` from the outdated fetch onward: the
unavailable signal (`runNpmOutdated` returned null) makes
`outdatedCountsAvailable` false, the marker set is built from whatever
JSON arrived, and the records are assembled per declared package. -/
def mainResults (fs : FileSystem) (root : String) (tree : DependencyNode)
    (outdatedJson : Option Jsonish)
    (lastUpdatedByPackage : String → Option String)
    (topDeps : List (String × TopMeta)) (cache : SizeCache) :
    List ResultRecord × SizeCache :=
  buildResults fs tree outdatedJson.isSome
    (some (collectOutdatedMarkers root outdatedJson))
    lastUpdatedByPackage topDeps cache

theorem entrySub_eq (n : String) (t : DependencyNode) :
    entrySub n t = (n, t) :: depsSub t.deps := by
  cases t; rfl

theorem mem_entrySub_self (n : String) (t : DependencyNode) :
    (n, t) ∈ entrySub n t := by
  rw [entrySub_eq]; exact List.mem_cons_self _ _

theorem mem_depsSub_iff (e : String × DependencyNode)
    (l : List (String × DependencyNode)) :
    e ∈ depsSub l ↔ ∃ c ∈ l, e ∈ entrySub c.1 c.2 := by
  induction l with
  | nil => simp [depsSub]
  | cons c rest ih =>
    cases c with
    | mk m u =>
      simp only [depsSub, List.mem_append, ih, List.mem_cons]
      constructor
      · rintro (h | ⟨c, hc, he⟩)
        · exact ⟨(m, u), Or.inl rfl, h⟩
        · exact ⟨c, Or.inr hc, he⟩
      · rintro ⟨c, hc | hc, he⟩
        · subst hc; exact Or.inl he
        · exact Or.inr ⟨c, hc, he⟩

theorem entrySub_sub (n : String) (t : DependencyNode)
    (c : String × DependencyNode) (hc : c ∈ t.deps) :
    ∀ e ∈ entrySub c.1 c.2, e ∈ entrySub n t := by
  intro e he
  rw [entrySub_eq]
  exact List.mem_cons_of_mem _ ((mem_depsSub_iff e t.deps).mpr ⟨c, hc, he⟩)

theorem nodeWeight_child_le (u : DependencyNode) (m : String)
    (l : List (String × DependencyNode)) (h : (m, u) ∈ l) :
    nodeWeight u ≤ depsWeight l := by
  induction l with
  | nil => cases h
  | cons c rest ih =>
    rcases List.mem_cons.mp h with h' | h'
    · cases c; cases h'; simp [depsWeight]
    · cases c
      simp only [depsWeight]
      have := ih h'
      omega

theorem nodeWeight_child_lt (t : DependencyNode) (c : String × DependencyNode)
    (hc : c ∈ t.deps) : nodeWeight c.2 < nodeWeight t := by
  cases t with
  | mk v p deps =>
    have := nodeWeight_child_le c.2 c.1 deps (by simpa [DependencyNode.deps] using hc)
    simp only [nodeWeight]
    omega

theorem entrySub_closed_aux : ∀ (W : Nat) (t : DependencyNode),
    nodeWeight t ≤ W → ∀ (n : String), ∀ e ∈ entrySub n t,
    ∀ c ∈ e.2.deps, c ∈ entrySub n t := by
  intro W
  induction W with
  | zero =>
    intro t h
    exact absurd h (by have := nodeWeight_pos t; omega)
  | succ W ih =>
    intro t hW n e he c hc
    rw [entrySub_eq] at he
    rcases List.mem_cons.mp he with h' | h'
    · subst h'
      exact entrySub_sub n t c hc _ (mem_entrySub_self c.1 c.2)
    · rcases (mem_depsSub_iff e t.deps).mp h' with ⟨d, hd, he'⟩
      have hlt := nodeWeight_child_lt t d hd
      have := ih d.2 (by omega) d.1 e he' c hc
      exact entrySub_sub n t d hd c this

/-- Identity key of a stack frame. -/
def frameId (s : String × DependencyNode × Nat) : String :=
  makeId s.1 s.2.1.version

/-- Distinct identity keys of a first-visit list. -/
def idsOf (V : List (String × DependencyNode × Nat)) : Finset String :=
  (V.map frameId).toFinset

theorem visitLoop_nodup : ∀ (stack : List (String × DependencyNode × Nat))
    (seen : Finset String),
    ((visitLoop stack seen).map frameId).Nodup ∧
      ∀ k ∈ (visitLoop stack seen).map frameId, k ∉ seen := by
  intro stack seen
  induction stack, seen using visitLoop.induct with
  | case1 seen => simp [visitLoop]
  | case2 n t d rest seen hmem ih =>
    rw [visitLoop]
    simp only [if_pos hmem]
    exact ih
  | case3 n t d rest seen hmem ih =>
    rw [visitLoop]
    simp only [if_neg hmem, List.map_cons, List.nodup_cons]
    refine ⟨⟨fun hk => ?_, ih.1⟩, ?_⟩
    · exact ih.2 _ hk (Finset.mem_insert_self _ _)
    · intro k hk
      rcases List.mem_cons.mp hk with h | h
      · subst h; exact hmem
      · exact fun hs => ih.2 _ h (Finset.mem_insert_of_mem hs)

theorem visitLoop_origin : ∀ (stack : List (String × DependencyNode × Nat))
    (seen : Finset String), ∀ v ∈ visitLoop stack seen,
    ∃ s ∈ stack, (v.1, v.2.1) ∈ entrySub s.1 s.2.1 := by
  intro stack seen
  induction stack, seen using visitLoop.induct with
  | case1 seen => simp [visitLoop]
  | case2 n t d rest seen hmem ih =>
    rw [visitLoop]
    simp only [if_pos hmem]
    intro v hv
    rcases ih v hv with ⟨s, hs, hin⟩
    exact ⟨s, List.mem_cons_of_mem _ hs, hin⟩
  | case3 n t d rest seen hmem ih =>
    rw [visitLoop]
    simp only [if_neg hmem]
    intro v hv
    rcases List.mem_cons.mp hv with h | h
    · subst h
      exact ⟨(n, t, d), List.mem_cons_self _ _, mem_entrySub_self n t⟩
    · rcases ih v h with ⟨s, hs, hin⟩
      rcases List.mem_append.mp hs with hs' | hs'
      · have hs'' := List.mem_reverse.mp hs'
        rcases List.mem_map.mp hs'' with ⟨c, hc, hceq⟩
        refine ⟨(n, t, d), List.mem_cons_self _ _, ?_⟩
        subst hceq
        exact entrySub_sub n t c hc _ hin
      · exact ⟨s, List.mem_cons_of_mem _ hs', hin⟩

theorem visitLoop_depth : ∀ (stack : List (String × DependencyNode × Nat))
    (seen : Finset String) (dmin : Nat),
    (∀ s ∈ stack, dmin ≤ s.2.2) → ∀ v ∈ visitLoop stack seen,
    dmin ≤ v.2.2 := by
  intro stack seen
  induction stack, seen using visitLoop.induct with
  | case1 seen => simp [visitLoop]
  | case2 n t d rest seen hmem ih =>
    rw [visitLoop]
    simp only [if_pos hmem]
    intro dmin hstack v hv
    exact ih dmin (fun s hs => hstack s (List.mem_cons_of_mem _ hs)) v hv
  | case3 n t d rest seen hmem ih =>
    rw [visitLoop]
    simp only [if_neg hmem]
    intro dmin hstack v hv
    rcases List.mem_cons.mp hv with h | h
    · subst h; exact hstack (n, t, d) (List.mem_cons_self _ _)
    · refine ih dmin ?_ v h
      intro s hs
      rcases List.mem_append.mp hs with hs' | hs'
      · have hs'' := List.mem_reverse.mp hs'
        rcases List.mem_map.mp hs'' with ⟨c, _, hceq⟩
        have hd : dmin ≤ d := hstack (n, t, d) (List.mem_cons_self _ _)
        subst hceq
        show dmin ≤ d + 1
        omega
      · exact hstack s (List.mem_cons_of_mem _ hs')

/-- Any two entries of the list that carry the same identity key carry the
same node; the data-model invariant of the specification ("two nodes with
the same name and version are always treated as the same logical package
... their subtrees are assumed to be structurally identical"). -/
def Coherent (E : List (String × DependencyNode)) : Prop :=
  ∀ e1 ∈ E, ∀ e2 ∈ E, entryId e1 = entryId e2 → e1.2 = e2.2

instance Coherent.decidable (E : List (String × DependencyNode))
    [DecidableEq DependencyNode] : Decidable (Coherent E) := by
  unfold Coherent; infer_instance

theorem visitLoop_closure (E : List (String × DependencyNode))
    (hclosed : ∀ e ∈ E, ∀ c ∈ e.2.deps, c ∈ E) (hco : Coherent E) :
    ∀ (stack : List (String × DependencyNode × Nat)) (seen : Finset String),
    (∀ s ∈ stack, (s.1, s.2.1) ∈ E) →
    (∀ e ∈ E, entryId e ∈ seen → ∀ c ∈ e.2.deps,
      entryId c ∈ seen ∨ ∃ s ∈ stack, frameId s = entryId c) →
    (∀ e ∈ E, entryId e ∈ seen ∪ idsOf (visitLoop stack seen) →
      ∀ c ∈ e.2.deps, entryId c ∈ seen ∪ idsOf (visitLoop stack seen)) ∧
    ∀ s ∈ stack, frameId s ∈ seen ∪ idsOf (visitLoop stack seen) := by
  intro stack seen
  induction stack, seen using visitLoop.induct with
  | case1 seen =>
    intro _ hJ
    constructor
    · intro e he hid c hc
      simp only [visitLoop, idsOf, List.map_nil, List.toFinset_nil,
        Finset.union_empty] at hid ⊢
      rcases hJ e he hid c hc with h | ⟨s, hs, _⟩
      · exact h
      · cases hs
    · intro s hs; cases hs
  | case2 n t d rest seen hmem ih =>
    rw [visitLoop]
    simp only [if_pos hmem]
    intro hstack hJ
    have hstack' : ∀ s ∈ rest, (s.1, s.2.1) ∈ E :=
      fun s hs => hstack s (List.mem_cons_of_mem _ hs)
    have hJ' : ∀ e ∈ E, entryId e ∈ seen → ∀ c ∈ e.2.deps,
        entryId c ∈ seen ∨ ∃ s ∈ rest, frameId s = entryId c := by
      intro e he hid c hc
      rcases hJ e he hid c hc with h | ⟨s, hs, heq⟩
      · exact Or.inl h
      · rcases List.mem_cons.mp hs with h' | h'
        · subst h'; exact Or.inl (heq ▸ hmem)
        · exact Or.inr ⟨s, h', heq⟩
    rcases ih hstack' hJ' with ⟨h1, h2⟩
    refine ⟨h1, ?_⟩
    intro s hs
    rcases List.mem_cons.mp hs with h' | h'
    · subst h'
      exact Finset.mem_union_left _ hmem
    · exact h2 s h'
  | case3 n t d rest seen hmem ih =>
    rw [visitLoop]
    simp only [if_neg hmem]
    intro hstack hJ
    have hroot : (n, t) ∈ E := hstack (n, t, d) (List.mem_cons_self _ _)
    have hSfin : ∀ V, seen ∪ idsOf ((n, t, d) :: V)
        = insert (makeId n t.version) seen ∪ idsOf V := by
      intro V
      simp only [idsOf, List.map_cons, List.toFinset_cons]
      ext k
      simp only [Finset.mem_union, Finset.mem_insert, frameId]
      tauto
    have hstack' : ∀ s ∈ (t.deps.map (fun e => (e.1, e.2, d + 1))).reverse
        ++ rest, (s.1, s.2.1) ∈ E := by
      intro s hs
      rcases List.mem_append.mp hs with hs' | hs'
      · have hs'' := List.mem_reverse.mp hs'
        rcases List.mem_map.mp hs'' with ⟨c, hc, hceq⟩
        subst hceq
        exact hclosed (n, t) hroot c hc
      · exact hstack s (List.mem_cons_of_mem _ hs')
    have hJ' : ∀ e ∈ E, entryId e ∈ insert (makeId n t.version) seen →
        ∀ c ∈ e.2.deps,
        entryId c ∈ insert (makeId n t.version) seen ∨
          ∃ s ∈ (t.deps.map (fun e => (e.1, e.2, d + 1))).reverse ++ rest,
            frameId s = entryId c := by
      intro e he hid c hc
      rcases Finset.mem_insert.mp hid with h' | h'
      · have hnode : e.2 = t := hco e he (n, t) hroot h'
        rw [hnode] at hc
        refine Or.inr ⟨(c.1, c.2, d + 1), ?_, rfl⟩
        exact List.mem_append.mpr (Or.inl (List.mem_reverse.mpr
          (List.mem_map.mpr ⟨c, hc, rfl⟩)))
      · rcases hJ e he h' c hc with h'' | ⟨s, hs, heq⟩
        · exact Or.inl (Finset.mem_insert_of_mem h'')
        · rcases List.mem_cons.mp hs with h3 | h3
          · subst h3
            exact Or.inl (heq ▸ Finset.mem_insert_self _ _)
          · exact Or.inr ⟨s, List.mem_append.mpr (Or.inr h3), heq⟩
    rcases ih hstack' hJ' with ⟨h1, h2⟩
    rw [hSfin]
    constructor
    · exact h1
    · intro s hs
      rcases List.mem_cons.mp hs with h' | h'
      · subst h'
        exact Finset.mem_union_left _ (Finset.mem_insert_self _ _)
      · exact h2 s (List.mem_append.mpr (Or.inr h'))

theorem subtree_covered (S : Finset String)
    (E : List (String × DependencyNode))
    (hclosed : ∀ e ∈ E, ∀ c ∈ e.2.deps, c ∈ E)
    (hstep : ∀ e ∈ E, entryId e ∈ S → ∀ c ∈ e.2.deps, entryId c ∈ S) :
    ∀ (W : Nat) (t : DependencyNode), nodeWeight t ≤ W → ∀ (n : String),
    (n, t) ∈ E → entryId (n, t) ∈ S → ∀ e ∈ entrySub n t, entryId e ∈ S := by
  intro W
  induction W with
  | zero =>
    intro t h
    exact absurd h (by have := nodeWeight_pos t; omega)
  | succ W ih =>
    intro t hW n hE hS e he
    rw [entrySub_eq] at he
    rcases List.mem_cons.mp he with h | h
    · subst h; exact hS
    · rcases (mem_depsSub_iff e t.deps).mp h with ⟨c, hc, he'⟩
      have hcE : c ∈ E := hclosed (n, t) hE c (by simpa using hc)
      have hcS : entryId c ∈ S := hstep (n, t) hE hS c (by simpa using hc)
      have hlt := nodeWeight_child_lt t c hc
      exact ih c.2 (by omega) c.1 (by simpa using hcE) hcS e he'

theorem visit_ids_union (E : List (String × DependencyNode))
    (hclosed : ∀ e ∈ E, ∀ c ∈ e.2.deps, c ∈ E) (hco : Coherent E)
    (stack : List (String × DependencyNode × Nat))
    (hstackE : ∀ s ∈ stack, (s.1, s.2.1) ∈ E)
    (hsubE : ∀ s ∈ stack, ∀ e ∈ entrySub s.1 s.2.1, e ∈ E)
    (hcover : ∀ e ∈ E, ∃ s ∈ stack, e ∈ entrySub s.1 s.2.1) :
    idsOf (visitLoop stack ∅) = (E.map entryId).toFinset := by
  have hcl := visitLoop_closure E hclosed hco stack ∅ hstackE
    (by intro e _ hid; simp at hid)
  rcases hcl with ⟨h1, h2⟩
  apply Finset.ext
  intro k
  simp only [idsOf, List.mem_toFinset, List.mem_map]
  constructor
  · rintro ⟨v, hv, rfl⟩
    rcases visitLoop_origin stack ∅ v hv with ⟨s, hs, hin⟩
    exact ⟨(v.1, v.2.1), hsubE s hs _ hin, rfl⟩
  · rintro ⟨e, he, rfl⟩
    rcases hcover e he with ⟨s, hs, hin⟩
    have hSroot : entryId (s.1, s.2.1) ∈ ∅ ∪ idsOf (visitLoop stack ∅) :=
      h2 s hs
    have hstep : ∀ e' ∈ E, entryId e' ∈ ∅ ∪ idsOf (visitLoop stack ∅) →
        ∀ c ∈ e'.2.deps, entryId c ∈ ∅ ∪ idsOf (visitLoop stack ∅) := h1
    have := subtree_covered (∅ ∪ idsOf (visitLoop stack ∅)) E hclosed hstep
      (nodeWeight s.2.1) s.2.1 le_rfl s.1 (hstackE s hs) hSroot e hin
    have h3 : entryId e ∈ idsOf (visitLoop stack ∅) := by
      simpa using this
    simpa only [idsOf, List.mem_toFinset, List.mem_map] using h3

theorem entrySub_all_in (n : String) (t : DependencyNode) :
    ∀ e ∈ entrySub n t, ∀ e' ∈ entrySub e.1 e.2, e' ∈ entrySub n t := by
  have main : ∀ (W : Nat) (t : DependencyNode), nodeWeight t ≤ W →
      ∀ (n : String), ∀ e ∈ entrySub n t, ∀ e' ∈ entrySub e.1 e.2,
      e' ∈ entrySub n t := by
    intro W
    induction W with
    | zero =>
      intro t h
      exact absurd h (by have := nodeWeight_pos t; omega)
    | succ W ih =>
      intro t hW n e he e' he'
      rw [entrySub_eq] at he
      rcases List.mem_cons.mp he with h | h
      · subst h; exact he'
      · rcases (mem_depsSub_iff e t.deps).mp h with ⟨c, hc, hin⟩
        have hlt := nodeWeight_child_lt t c hc
        have := ih c.2 (by omega) c.1 e hin e' he'
        exact entrySub_sub n t c hc e' this
  exact main (nodeWeight t) t le_rfl n

theorem visit_ids_of_root (n : String) (t : DependencyNode)
    (hco : Coherent (entrySub n t)) :
    idsOf (visitLoop [(n, t, 0)] ∅) = entryIds n t := by
  have hclosed : ∀ e ∈ entrySub n t, ∀ c ∈ e.2.deps, c ∈ entrySub n t :=
    entrySub_closed_aux (nodeWeight t) t le_rfl n
  have := visit_ids_union (entrySub n t) hclosed hco [(n, t, 0)]
    (by intro s hs
        rcases List.mem_cons.mp hs with h | h
        · subst h; exact mem_entrySub_self n t
        · cases h)
    (by intro s hs e he
        rcases List.mem_cons.mp hs with h | h
        · subst h; exact he
        · cases h)
    (by intro e he; exact ⟨(n, t, 0), List.mem_cons_self _ _, he⟩)
  rw [this]; rfl


/-- Count of first-visited frames at positive depth that match the
outdated markers. -/
def countOut (markers : Option OutdatedMarkers)
    (V : List (String × DependencyNode × Nat)) : Nat :=
  (V.filter (fun v => decide (0 < v.2.2) && isOutdatedNode v.1 v.2.1
    markers)).length

/-- Byte totals of a first-visit list, each path priced by the pure
estimator value. -/
def sumBytes (fs : FileSystem) (V : List (String × DependencyNode × Nat)) :
    Nat :=
  (V.map (fun v => jsPathSize fs v.2.1.path)).sum

theorem countOut_cons (m : Option OutdatedMarkers)
    (v : String × DependencyNode × Nat)
    (V : List (String × DependencyNode × Nat)) :
    countOut m (v :: V) = countOut m V +
      (if decide (0 < v.2.2) && isOutdatedNode v.1 v.2.1 m then 1 else 0) := by
  simp only [countOut, List.filter_cons]
  by_cases hb : (decide (0 < v.2.2) && isOutdatedNode v.1 v.2.1 m) = true
  · simp [hb]
  · simp [hb]

theorem getApproxPathSize_consistent (fs : FileSystem)
    (path : Option String) (cache : SizeCache)
    (h : Consistent fs cache) :
    (getApproxPathSize fs path cache).1 = jsPathSize fs path ∧
    Consistent fs (getApproxPathSize fs path cache).2 := by
  cases path with
  | none => exact ⟨rfl, h⟩
  | some p =>
    by_cases hp : p = ""
    · simp only [getApproxPathSize, jsPathSize, if_pos hp]
      exact ⟨trivial, h⟩
    · cases hl : List.lookup p cache with
      | some v =>
        simp only [getApproxPathSize, jsPathSize, if_neg hp, hl]
        exact ⟨h p v hl, h⟩
      | none =>
        simp only [getApproxPathSize, jsPathSize, if_neg hp, hl]
        refine ⟨trivial, ?_⟩
        intro q w hq
        by_cases hqp : q = p
        · subst hqp
          simp only [List.lookup, beq_self_eq_true] at hq
          exact (Option.some.inj hq).symm
        · have hne : (q == p) = false := by
            simpa using hqp
          simp only [List.lookup, hne] at hq
          exact h q w hq

theorem statsLoop_spec (fs : FileSystem) (markers : Option OutdatedMarkers) :
    ∀ (stack : List (String × DependencyNode × Nat)) (seen : Finset String)
    (o b : Nat) (cache : SizeCache),
    (statsLoop fs markers stack seen o b cache).1
        = seen ∪ idsOf (visitLoop stack seen) ∧
    (statsLoop fs markers stack seen o b cache).2.1
        = o + countOut markers (visitLoop stack seen) := by
  intro stack seen
  induction stack, seen using visitLoop.induct with
  | case1 seen =>
    intro o b cache
    simp [statsLoop, visitLoop, idsOf, countOut]
  | case2 n t d rest seen hmem ih =>
    intro o b cache
    rw [statsLoop, visitLoop]
    simp only [if_pos hmem]
    exact ih o b cache
  | case3 n t d rest seen hmem ih =>
    intro o b cache
    rw [statsLoop, visitLoop]
    simp only [if_neg hmem]
    rcases ih (if 0 < d ∧ isOutdatedNode n t markers then o + 1 else o)
      (b + (getApproxPathSize fs t.path cache).1)
      (getApproxPathSize fs t.path cache).2 with ⟨h1, h2⟩
    constructor
    · rw [h1]
      simp only [idsOf, List.map_cons, List.toFinset_cons]
      ext k
      simp only [Finset.mem_union, Finset.mem_insert, frameId]
      tauto
    · rw [h2, countOut_cons]
      by_cases hc : 0 < d ∧ isOutdatedNode n t markers
      · have hb : (decide (0 < d) && isOutdatedNode n t markers) = true := by
          simp [hc.1, hc.2]
        simp only [if_pos hc, hb, if_true]
        omega
      · have hb : (decide (0 < d) && isOutdatedNode n t markers) = false := by
          rcases not_and_or.mp hc with h | h
          · simp [h]
          · simp only [Bool.not_eq_true] at h
            simp [h]
        simp only [if_neg hc, hb, Bool.false_eq_true, if_false]
        omega

theorem statsLoop_bytes (fs : FileSystem)
    (markers : Option OutdatedMarkers) :
    ∀ (stack : List (String × DependencyNode × Nat)) (seen : Finset String)
    (o b : Nat) (cache : SizeCache), Consistent fs cache →
    (statsLoop fs markers stack seen o b cache).2.2.1
        = b + sumBytes fs (visitLoop stack seen) ∧
    Consistent fs (statsLoop fs markers stack seen o b cache).2.2.2 := by
  intro stack seen
  induction stack, seen using visitLoop.induct with
  | case1 seen =>
    intro o b cache hcons
    simpa [statsLoop, visitLoop, sumBytes] using hcons
  | case2 n t d rest seen hmem ih =>
    intro o b cache hcons
    rw [statsLoop, visitLoop]
    simp only [if_pos hmem]
    exact ih o b cache hcons
  | case3 n t d rest seen hmem ih =>
    intro o b cache hcons
    rw [statsLoop, visitLoop]
    simp only [if_neg hmem]
    rcases getApproxPathSize_consistent fs t.path cache hcons with ⟨hg1, hg2⟩
    rcases ih (if 0 < d ∧ isOutdatedNode n t markers then o + 1 else o)
      (b + (getApproxPathSize fs t.path cache).1)
      (getApproxPathSize fs t.path cache).2 hg2 with ⟨h1, h2⟩
    refine ⟨?_, h2⟩
    rw [h1, hg1]
    simp only [sumBytes, List.map_cons, List.sum_cons]
    omega

theorem aggLoop_spec (fs : FileSystem) :
    ∀ (stack : List (String × DependencyNode × Nat)) (seen : Finset String)
    (total : Nat) (cache : SizeCache), Consistent fs cache →
    (aggLoop fs stack seen total cache).1
        = total + sumBytes fs (visitLoop stack seen) ∧
    Consistent fs (aggLoop fs stack seen total cache).2 := by
  intro stack seen
  induction stack, seen using visitLoop.induct with
  | case1 seen =>
    intro total cache hcons
    simpa [aggLoop, visitLoop, sumBytes] using hcons
  | case2 n t d rest seen hmem ih =>
    intro total cache hcons
    rw [aggLoop, visitLoop]
    simp only [if_pos hmem]
    exact ih total cache hcons
  | case3 n t d rest seen hmem ih =>
    intro total cache hcons
    rw [aggLoop, visitLoop]
    simp only [if_neg hmem]
    rcases getApproxPathSize_consistent fs t.path cache hcons with ⟨hg1, hg2⟩
    rcases ih (total + (getApproxPathSize fs t.path cache).1)
      (getApproxPathSize fs t.path cache).2 hg2 with ⟨h1, h2⟩
    refine ⟨?_, h2⟩
    rw [h1, hg1]
    simp only [sumBytes, List.map_cons, List.sum_cons]
    omega

mutual
/-- Structural boolean equality of dependency nodes. -/
def nodeBeq : DependencyNode → DependencyNode → Bool
  | .mk v1 p1 d1, .mk v2 p2 d2 => v1 == v2 && p1 == p2 && depsBeq d1 d2

/-- Structural boolean equality of dependency lists. -/
def depsBeq : List (String × DependencyNode) →
    List (String × DependencyNode) → Bool
  | [], [] => true
  | (n1, t1) :: r1, (n2, t2) :: r2 =>
    n1 == n2 && nodeBeq t1 t2 && depsBeq r1 r2
  | [], _ :: _ => false
  | _ :: _, [] => false
end

theorem nodeBeq_iff : ∀ (W : Nat) (a : DependencyNode), nodeWeight a ≤ W →
    ∀ b, (nodeBeq a b = true ↔ a = b) := by
  intro W
  induction W with
  | zero =>
    intro a h
    exact absurd h (by have := nodeWeight_pos a; omega)
  | succ W ih =>
    intro a hW b
    cases a with
    | mk v1 p1 d1 =>
      cases b with
      | mk v2 p2 d2 =>
        have hd : depsWeight d1 ≤ W := by
          simp only [nodeWeight] at hW; omega
        have hlist : ∀ (l : List (String × DependencyNode)),
            depsWeight l ≤ W → ∀ m, (depsBeq l m = true ↔ l = m) := by
          intro l
          induction l with
          | nil =>
            intro _ m
            cases m with
            | nil => simp [depsBeq]
            | cons e2 r2 =>
              obtain ⟨n2, t2⟩ := e2
              simp [depsBeq]
          | cons e r ihr =>
            obtain ⟨n1, t1⟩ := e
            intro hw m
            cases m with
            | nil => simp [depsBeq]
            | cons e2 r2 =>
              obtain ⟨n2, t2⟩ := e2
              have h1 : nodeWeight t1 ≤ W := by
                simp only [depsWeight] at hw
                omega
              have h2 : depsWeight r ≤ W := by
                simp only [depsWeight] at hw
                have := nodeWeight_pos t1
                omega
              simp only [depsBeq, Bool.and_eq_true, beq_iff_eq,
                ih t1 h1 t2, ihr h2 r2, List.cons.injEq, Prod.mk.injEq]
        simp only [nodeBeq, Bool.and_eq_true, beq_iff_eq,
          hlist d1 hd d2, DependencyNode.mk.injEq]
        tauto

instance : DecidableEq DependencyNode := fun a b =>
  decidable_of_iff (nodeBeq a b = true)
    (nodeBeq_iff (nodeWeight a) a le_rfl b)

/-- Demo fixture: the shared leaf package of the specification scenario. -/
def tShared : DependencyNode := .mk (some "1.0.0") (some "/nm/shared") []

/-- Demo fixture: beta depends on shared. -/
def tBeta : DependencyNode :=
  .mk (some "1.0.0") (some "/nm/beta") [("shared", tShared)]

/-- Demo fixture: gamma depends on shared as well. -/
def tGamma : DependencyNode :=
  .mk (some "1.0.0") (some "/nm/gamma") [("shared", tShared)]

/-- Demo fixture: alpha has no dependencies. -/
def tAlpha : DependencyNode := .mk (some "1.0.0") (some "/nm/alpha") []

/-- Demo fixture: the installed tree root. -/
def treeDemo : DependencyNode :=
  .mk none none [("alpha", tAlpha), ("beta", tBeta), ("gamma", tGamma)]

/-- Demo fixture: install directories with the scenario's byte totals. -/
def fsDemo : FileSystem := fun p =>
  if p = "/nm/alpha" then some (.dir [("a.txt", .file 10)])
  else if p = "/nm/beta" then some (.dir [("b.txt", .file 20)])
  else if p = "/nm/gamma" then some (.dir [("c.txt", .file 30)])
  else if p = "/nm/shared" then some (.dir [("d.txt", .file 40)])
  else none

/-- C1: for every dependency tree (satisfying the data-model invariant
that entries sharing an IdentityKey carry the same node) and every
top-level package present in it, the reported `subdeps` equals the number
of distinct IdentityKeys reachable through its `dependencies` edges minus
1 for the package itself, however many parents share a descendant. -/
theorem subdeps_eq_distinct_reachable_ids
    (fs : FileSystem) (markers : Option OutdatedMarkers) (cache : SizeCache)
    (tree : DependencyNode) (name : String) (t : DependencyNode)
    (hfound : List.lookup name tree.deps = some t)
    (hco : Coherent (entrySub name t)) :
    (collectSubtreeStats fs name (List.lookup name tree.deps) cache
        markers).1.subdeps = (entryIds name t).card - 1 := by
  rw [hfound]
  simp only [collectSubtreeStats]
  rcases statsLoop_spec fs markers [(name, t, 0)] ∅ 0 0 cache with ⟨h1, _⟩
  rw [h1, Finset.empty_union, visit_ids_of_root name t hco]

/-- Witness for C1 at the demo tree: beta's subdeps value is computed and
matches the distinct reachable id count minus one. -/
theorem subdeps_eq_distinct_reachable_ids_witness :
    (collectSubtreeStats fsDemo "beta" (List.lookup "beta" treeDemo.deps)
        [] none).1.subdeps = (entryIds "beta" tBeta).card - 1 ∧
    (entryIds "beta" tBeta).card - 1 = 1 :=
  ⟨subdeps_eq_distinct_reachable_ids fsDemo none [] treeDemo "beta" tBeta
      (by decide) (by decide),
    by decide⟩

/-- C10: for every top-level name, node, cache and outdated marker set,
the subtree record satisfies `outdatedSubdeps ≤ subdeps`: only a freshly
visited node at depth above zero bumps the outdated counter, and each such
node also grows the unique id set. -/
theorem outdatedSubdeps_le_subdeps (fs : FileSystem)
    (markers : Option OutdatedMarkers) (cache : SizeCache) (name : String)
    (node : Option DependencyNode) :
    (collectSubtreeStats fs name node cache markers).1.outdatedSubdeps ≤
      (collectSubtreeStats fs name node cache markers).1.subdeps := by
  cases node with
  | none => simp [collectSubtreeStats]
  | some t =>
    simp only [collectSubtreeStats]
    rcases statsLoop_spec fs markers [(name, t, 0)] ∅ 0 0 cache with ⟨h1, h2⟩
    rw [h1, h2, Finset.empty_union]
    have hunfold : visitLoop [(name, t, 0)] ∅ = (name, t, 0) ::
        visitLoop ((t.deps.map (fun e => (e.1, e.2, 0 + 1))).reverse ++ [])
          (insert (makeId name t.version) ∅) := by
      rw [visitLoop]
      simp
    have hnodup := (visitLoop_nodup [(name, t, 0)] ∅).1
    have hcard : (idsOf (visitLoop [(name, t, 0)] ∅)).card
        = (visitLoop [(name, t, 0)] ∅).length := by
      rw [idsOf, List.toFinset_card_of_nodup hnodup, List.length_map]
    have hco : countOut markers (visitLoop [(name, t, 0)] ∅)
        = countOut markers
          (visitLoop ((t.deps.map (fun e => (e.1, e.2, 0 + 1))).reverse ++ [])
            (insert (makeId name t.version) ∅)) := by
      rw [hunfold, countOut_cons]
      simp
    have hlen : (visitLoop [(name, t, 0)] ∅).length
        = (visitLoop ((t.deps.map (fun e => (e.1, e.2, 0 + 1))).reverse ++ [])
            (insert (makeId name t.version) ∅)).length + 1 := by
      rw [hunfold]; rfl
    have hle := List.length_filter_le
      (fun v => decide (0 < v.2.2) && isOutdatedNode v.1 v.2.1 markers)
      (visitLoop ((t.deps.map (fun e => (e.1, e.2, 0 + 1))).reverse ++ [])
        (insert (makeId name t.version) ∅))
    rw [hcard, hco, hlen]
    simp only [countOut]
    omega

/-- C9: a frame whose IdentityKey is already in the visited set is skipped
entirely (its children are never pushed, whatever its subtree holds), and
the first-visit list never repeats an identity key, so no package is
counted twice; the traversal is a total function, so it terminates on
every finite tree, cycles-by-identity included. -/
theorem revisited_id_skipped_entirely (fs : FileSystem)
    (markers : Option OutdatedMarkers) (n : String) (t : DependencyNode)
    (d : Nat) (rest : List (String × DependencyNode × Nat))
    (seen : Finset String) (o b : Nat) (cache : SizeCache)
    (h : makeId n t.version ∈ seen) :
    statsLoop fs markers ((n, t, d) :: rest) seen o b cache
        = statsLoop fs markers rest seen o b cache ∧
    ∀ (stack : List (String × DependencyNode × Nat)) (seen2 : Finset String),
      ((visitLoop stack seen2).map frameId).Nodup :=
  ⟨by rw [statsLoop]; simp [h],
    fun stack seen2 => (visitLoop_nodup stack seen2).1⟩

/-- Witness for C9: a frame for beta is dropped wholesale when beta's id
was already visited. -/
theorem revisited_id_skipped_entirely_witness :
    statsLoop fsDemo none [("beta", tBeta, 1)] {"beta@1.0.0"} 0 0 []
        = statsLoop fsDemo none [] {"beta@1.0.0"} 0 0 [] ∧
    ∀ (stack : List (String × DependencyNode × Nat)) (seen2 : Finset String),
      ((visitLoop stack seen2).map frameId).Nodup :=
  revisited_id_skipped_entirely fsDemo none "beta" tBeta 1 []
    {"beta@1.0.0"} 0 0 [] (by decide)

mutual
/-- Weight of a filesystem object, for induction. -/
def fsWeight : FSEntry → Nat
  | .file _ => 1
  | .dir entries => 1 + fsListWeight entries
  | .symlink _ => 1
  | .other => 1

/-- Weight of a directory entry list. -/
def fsListWeight : List (String × FSEntry) → Nat
  | [] => 0
  | (_, e) :: rest => fsWeight e + fsListWeight rest
end

mutual
/-- The same filesystem object with every symbolic link removed from every
directory, recursively. -/
def scrubLinks : FSEntry → FSEntry
  | .file sz => .file sz
  | .dir entries => .dir (scrubList entries)
  | .symlink target => .symlink target
  | .other => .other

/-- Drop symlink entries from a directory listing and scrub the rest. -/
def scrubList : List (String × FSEntry) → List (String × FSEntry)
  | [] => []
  | (n, e) :: rest =>
    match e with
    | .symlink _ => scrubList rest
    | e' => (n, scrubLinks e') :: scrubList rest
end

theorem fsWeight_pos (e : FSEntry) : 0 < fsWeight e := by
  cases e <;> simp [fsWeight]

theorem scrubLinks_size : ∀ (W : Nat) (e : FSEntry), fsWeight e ≤ W →
    entrySize (scrubLinks e) = entrySize e := by
  intro W
  induction W with
  | zero =>
    intro e h
    exact absurd h (by have := fsWeight_pos e; omega)
  | succ W ih =>
    intro e hW
    cases e with
    | file sz => rfl
    | symlink target => rfl
    | other => rfl
    | dir entries =>
      have hents : fsListWeight entries ≤ W := by
        simp only [fsWeight] at hW; omega
      have hlist : ∀ (l : List (String × FSEntry)), fsListWeight l ≤ W →
          entriesSize (scrubList l) = entriesSize l := by
        intro l
        induction l with
        | nil => intro _; rfl
        | cons p rest ihr =>
          obtain ⟨n, e⟩ := p
          intro hw
          have h1 : fsWeight e ≤ W := by
            simp only [fsListWeight] at hw; omega
          have h2 : fsListWeight rest ≤ W := by
            simp only [fsListWeight] at hw
            have := fsWeight_pos e
            omega
          cases e with
          | file sz => simp [scrubList, entriesSize, scrubLinks, ihr h2]
          | symlink target =>
            simp [scrubList, entriesSize, entrySize, ihr h2]
          | other => simp [scrubList, entriesSize, scrubLinks, ihr h2]
          | dir es =>
            simp only [scrubList, entriesSize, ihr h2]
            rw [ih (.dir es) h1]
      simp only [scrubLinks, entrySize]
      exact hlist entries hents

/-- C7: symbolic links never contribute to any size total and are never
traversed into: removing every symlink (with whatever content its target
resolves to) from the filesystem leaves every computed total unchanged,
and a path that is itself a symlink is estimated at 0 bytes whenever the
estimator actually estimates it (no stale memoized entry for the path). -/
theorem symlinks_never_counted :
    (∀ e : FSEntry, entrySize (scrubLinks e) = entrySize e) ∧
    ∀ (fs : FileSystem) (p : String) (cache : SizeCache)
      (target : FSEntry), List.lookup p cache = none →
      fs p = some (.symlink target) →
      (getApproxPathSize fs (some p) cache).1 = 0 := by
  constructor
  · intro e
    exact scrubLinks_size (fsWeight e) e le_rfl
  · intro fs p cache target hcache hfs
    by_cases hp : p = ""
    · simp [getApproxPathSize, hp]
    · simp [getApproxPathSize, hp, hcache, pathTotal, hfs, entrySize]

/-- Witness for C7: a symlink whose target holds a 1000-byte file is
estimated at 0 bytes, and scrubbing a directory holding that symlink
leaves its 7-byte total unchanged. -/
theorem symlinks_never_counted_witness :
    entrySize (scrubLinks (.dir [("real.txt", .file 7),
        ("link", .symlink (.file 1000))]))
      = entrySize (.dir [("real.txt", .file 7),
        ("link", .symlink (.file 1000))]) ∧
    (getApproxPathSize (fun p => if p = "/link"
        then some (.symlink (.file 1000)) else none) (some "/link") []).1
      = 0 :=
  ⟨symlinks_never_counted.1 _,
    symlinks_never_counted.2 _ "/link" [] (.file 1000) rfl rfl⟩

/-- Demo fixture: a parser recognizing one date string. -/
def demoParse : String → Option Int :=
  fun s => if s = "2020-01-01" then some 100 else none

/-- Demo fixture: a record with no publish timestamp. -/
def recNoDate : ResultRecord :=
  ⟨"zeta", "^1", "1.0.0", none, ["prod"], 0, some 0, 0⟩

/-- Demo fixture: a record with a parsable publish timestamp. -/
def recDated : ResultRecord :=
  ⟨"alpha", "^1", "1.0.0", some "2020-01-01", ["prod"], 5, some 0, 50⟩

/-- Counterexample to C3 as stated: under the publish sort in ascending
mode, a record without a timestamp compares as 1 (i.e. AFTER the dated
record), not before it as the claim requires; the comparator returns 1
for an undated left operand regardless of direction. -/
theorem publish_missing_ts_claim_cex :
    getResultsComparator demoParse "publish" (some "asc")
        recNoDate recDated = 1 ∧
    getPublishTimestamp demoParse recNoDate.lastUpdated = none ∧
    getPublishTimestamp demoParse recDated.lastUpdated = some 100 ∧
    ¬ getResultsComparator demoParse "publish" (some "asc")
        recNoDate recDated < 0 := by
  refine ⟨rfl, rfl, rfl, ?_⟩
  decide

/-- C3 as amended: under the publish sort key a record with an unparsable
or missing timestamp sorts after all dated entries in BOTH directions
(1 when only the left operand is undated, -1 when only the right one is),
and the secondary tie-break chain (subdeps, then size, then name) applies
exactly when both records lack a timestamp. -/
theorem publish_missing_ts_sorts_last (dateParse : String → Option Int)
    (direction : Option String) (a b : ResultRecord) :
    (getPublishTimestamp dateParse a.lastUpdated = none →
      (∃ ts, getPublishTimestamp dateParse b.lastUpdated = some ts) →
      getResultsComparator dateParse "publish" direction a b = 1) ∧
    ((∃ ts, getPublishTimestamp dateParse a.lastUpdated = some ts) →
      getPublishTimestamp dateParse b.lastUpdated = none →
      getResultsComparator dateParse "publish" direction a b = -1) ∧
    (getPublishTimestamp dateParse a.lastUpdated = none →
      getPublishTimestamp dateParse b.lastUpdated = none →
      getResultsComparator dateParse "publish" direction a b =
        jsOr ((b.subdeps : Int) - (a.subdeps : Int))
          (jsOr ((b.approxBytes : Int) - (a.approxBytes : Int))
            (localeCmp a.name b.name))) := by
  refine ⟨?_, ?_, ?_⟩
  · intro h1 h2
    rcases h2 with ⟨ts, hts⟩
    simp [getResultsComparator, h1, hts]
  · intro h1 h2
    rcases h1 with ⟨ts, hts⟩
    simp [getResultsComparator, h2, hts]
  · intro h1 h2
    simp [getResultsComparator, h1, h2]

/-- Witness for the amended C3 at concrete records: undated-vs-dated gives
1 in ascending mode, dated-vs-undated gives -1, and undated-vs-undated
falls back to the tie-break chain. -/
theorem publish_missing_ts_sorts_last_witness :
    getResultsComparator demoParse "publish" (some "asc")
        recNoDate recDated = 1 ∧
    getResultsComparator demoParse "publish" (some "asc")
        recDated recNoDate = -1 ∧
    getResultsComparator demoParse "publish" (some "asc")
        recNoDate recNoDate =
      jsOr ((recNoDate.subdeps : Int) - (recNoDate.subdeps : Int))
        (jsOr ((recNoDate.approxBytes : Int) - (recNoDate.approxBytes : Int))
          (localeCmp recNoDate.name recNoDate.name)) :=
  ⟨(publish_missing_ts_sorts_last demoParse (some "asc")
      recNoDate recDated).1 rfl ⟨100, rfl⟩,
    (publish_missing_ts_sorts_last demoParse (some "asc")
      recDated recNoDate).2.1 ⟨100, rfl⟩ rfl,
    (publish_missing_ts_sorts_last demoParse (some "asc")
      recNoDate recNoDate).2.2 rfl rfl⟩

theorem buildResults_unavailable (fs : FileSystem) (tree : DependencyNode)
    (markers : Option OutdatedMarkers) (lu : String → Option String) :
    ∀ (tds : List (String × TopMeta)) (cache : SizeCache),
    ∀ r ∈ (buildResults fs tree false markers lu tds cache).1,
    r.outdatedSubdeps = none := by
  intro tds
  induction tds with
  | nil =>
    intro cache r hr
    simp [buildResults] at hr
  | cons p rest ih =>
    obtain ⟨n, m⟩ := p
    intro cache r hr
    simp only [buildResults] at hr
    rcases List.mem_cons.mp hr with h | h
    · subst h
      cases hl : List.lookup n tree.deps with
      | none => simp [buildResult, hl]
      | some node => simp [buildResult, hl]
    · exact ih _ r h

/-- C5: when the outdated fetch returned the unavailable signal (null),
every result record's outdated count is the null marker, never zero,
records for packages absent from the installed tree included. -/
theorem outdated_unavailable_all_null (fs : FileSystem) (root : String)
    (tree : DependencyNode) (lu : String → Option String)
    (topDeps : List (String × TopMeta)) (cache : SizeCache)
    (outdatedJson : Option Jsonish) (h : outdatedJson = none) :
    ∀ r ∈ (mainResults fs root tree outdatedJson lu topDeps cache).1,
      r.outdatedSubdeps = none := by
  subst h
  exact buildResults_unavailable fs tree
    (some (collectOutdatedMarkers root none)) lu topDeps cache

/-- Demo fixture: no registry metadata for any package. -/
def luDemo : String → Option String := fun _ => none

/-- Demo fixture: a declared dependency list with one installed and one
missing package. -/
def tdsDemo : List (String × TopMeta) :=
  [("beta", ⟨["prod"], "^1.0.0"⟩), ("missing", ⟨["dev"], "^2.0.0"⟩)]

/-- Witness for C5: with a null outdated dataset, both demo records (one
installed, one NOT INSTALLED) carry the null outdated marker. -/
theorem outdated_unavailable_all_null_witness :
    ((mainResults fsDemo "/proj" treeDemo none luDemo tdsDemo []).1.map
      (fun r => r.outdatedSubdeps)).all Option.isNone = true := by
  have h := outdated_unavailable_all_null fsDemo "/proj" treeDemo luDemo
    tdsDemo [] none rfl
  rw [List.all_eq_true]
  intro o ho
  rcases List.mem_map.mp ho with ⟨r, hr, hre⟩
  rw [← hre, h r hr]
  rfl

/-- C6: a package declared in the manifest but absent from the installed
tree yields a record with subdeps 0, approxBytes 0 and the NOT INSTALLED
sentinel, and the (total) result loop still produces the whole report. -/
theorem not_installed_record_zeroed (fs : FileSystem)
    (tree : DependencyNode) (avail : Bool)
    (markers : Option OutdatedMarkers) (lu : String → Option String)
    (tds : List (String × TopMeta)) (cache : SizeCache) (name : String)
    (meta : TopMeta) (hmem : (name, meta) ∈ tds)
    (habsent : List.lookup name tree.deps = none) :
    ∃ r ∈ (buildResults fs tree avail markers lu tds cache).1,
      r.name = name ∧ r.subdeps = 0 ∧ r.approxBytes = 0 ∧
      r.installed = "NOT INSTALLED" := by
  revert hmem
  induction tds generalizing cache with
  | nil =>
    intro hmem
    cases hmem
  | cons p rest ih =>
    intro hmem
    obtain ⟨n0, m0⟩ := p
    rcases List.mem_cons.mp hmem with h | h
    · obtain ⟨rfl, rfl⟩ := Prod.mk.injEq .. ▸ h
      refine ⟨(buildResult fs tree avail markers lu cache name meta).1,
        ?_, ?_⟩
      · simp only [buildResults]
        exact List.mem_cons_self _ _
      · simp [buildResult, habsent]
    · rcases ih ((buildResult fs tree avail markers lu cache n0 m0).2) h
        with ⟨r, hr, hprops⟩
      refine ⟨r, ?_, hprops⟩
      simp only [buildResults]
      exact List.mem_cons_of_mem _ hr

/-- Witness for C6: the demo manifest declares a package missing from the
installed tree, and its record comes out zeroed with the sentinel. -/
theorem not_installed_record_zeroed_witness :
    ∃ r ∈ (buildResults fsDemo treeDemo true (some ⟨[], []⟩) luDemo
        tdsDemo []).1,
      r.name = "missing" ∧ r.subdeps = 0 ∧ r.approxBytes = 0 ∧
      r.installed = "NOT INSTALLED" :=
  not_installed_record_zeroed fsDemo treeDemo true (some ⟨[], []⟩) luDemo
    tdsDemo [] "missing" ⟨["dev"], "^2.0.0"⟩ (by decide) (by decide)

/-- Stable insertion step of the comparator sort that models
`results.sort(comparator)`. -/
def insertRec (le : ResultRecord → ResultRecord → Bool) (x : ResultRecord) :
    List ResultRecord → List ResultRecord
  | [] => [x]
  | y :: ys => if le x y then x :: y :: ys else y :: insertRec le x ys

/-- Comparator sort of the result list: a sorted permutation under
`le a b`, i.e. `comparator(a, b) <= 0`. -/
def sortRecords (le : ResultRecord → ResultRecord → Bool) :
    List ResultRecord → List ResultRecord
  | [] => []
  | x :: xs => insertRec le x (sortRecords le xs)

/-- The non-positive-comparator relation used by the sort. -/
def recordLE (dateParse : String → Option Int) (sortMode : String)
    (direction : Option String) (a b : ResultRecord) : Bool :=
  getResultsComparator dateParse sortMode direction a b ≤ 0

/-- JS `results.sort(getResultsComparator(sortMode, direction))`. -/
def sortResults (dateParse : String → Option Int) (sortMode : String)
    (direction : Option String) (l : List ResultRecord) :
    List ResultRecord :=
  sortRecords (recordLE dateParse sortMode direction) l

theorem insertRec_perm (le : ResultRecord → ResultRecord → Bool)
    (x : ResultRecord) (l : List ResultRecord) :
    List.Perm (insertRec le x l) (x :: l) := by
  induction l with
  | nil => rfl
  | cons y ys ih =>
    simp only [insertRec]
    by_cases h : le x y
    · rw [if_pos h]
    · rw [if_neg h]
      exact (ih.cons y).trans (List.Perm.swap x y ys)

theorem sortRecords_perm (le : ResultRecord → ResultRecord → Bool)
    (l : List ResultRecord) : List.Perm (sortRecords le l) l := by
  induction l with
  | nil => rfl
  | cons x xs ih =>
    exact (insertRec_perm le x (sortRecords le xs)).trans (ih.cons x)

theorem mem_insertRec (le : ResultRecord → ResultRecord → Bool)
    (x z : ResultRecord) (l : List ResultRecord) :
    z ∈ insertRec le x l ↔ z = x ∨ z ∈ l := by
  rw [(insertRec_perm le x l).mem_iff, List.mem_cons]

theorem pairwise_insertRec (le : ResultRecord → ResultRecord → Bool)
    (htot : ∀ a b, le a b = true ∨ le b a = true)
    (htrans : ∀ a b c, le a b = true → le b c = true → le a c = true)
    (x : ResultRecord) (l : List ResultRecord)
    (hl : l.Pairwise (fun a b => le a b = true)) :
    (insertRec le x l).Pairwise (fun a b => le a b = true) := by
  induction l with
  | nil => simp [insertRec]
  | cons y ys ih =>
    rw [List.pairwise_cons] at hl
    obtain ⟨hy, hys⟩ := hl
    simp only [insertRec]
    by_cases h : le x y
    · rw [if_pos h]
      refine List.pairwise_cons.mpr ⟨?_, List.pairwise_cons.mpr ⟨hy, hys⟩⟩
      intro z hz
      rcases List.mem_cons.mp hz with h' | h'
      · subst h'; exact h
      · exact htrans x y z h (hy z h')
    · rw [if_neg h]
      have hyx : le y x = true := (htot x y).resolve_left h
      refine List.pairwise_cons.mpr ⟨?_, ih hys⟩
      intro z hz
      rcases (mem_insertRec le x z ys).mp hz with h' | h'
      · subst h'; exact hyx
      · exact hy z h'

theorem pairwise_sortRecords (le : ResultRecord → ResultRecord → Bool)
    (htot : ∀ a b, le a b = true ∨ le b a = true)
    (htrans : ∀ a b c, le a b = true → le b c = true → le a c = true)
    (l : List ResultRecord) :
    (sortRecords le l).Pairwise (fun a b => le a b = true) := by
  induction l with
  | nil => simp [sortRecords]
  | cons x xs ih => exact pairwise_insertRec le htot htrans x _ ih

theorem jsOr_le_zero (x y : Int) : jsOr x y ≤ 0 ↔ x < 0 ∨ (x = 0 ∧ y ≤ 0) := by
  by_cases hx : x = 0
  · simp [jsOr, hx]
  · simp only [jsOr, if_neg hx]
    omega

theorem localeCmp_le_zero (a b : String) : localeCmp a b ≤ 0 ↔ a ≤ b := by
  unfold localeCmp
  rcases lt_trichotomy a b with h | rfl | h
  · rw [if_pos h]
    exact iff_of_true (by decide) h.le
  · rw [if_neg (lt_irrefl a), if_neg (lt_irrefl a)]
    exact iff_of_true (by decide) le_rfl
  · have h1 : ¬a < b := lt_asymm h
    rw [if_neg h1, if_pos h]
    exact iff_of_false (by decide) (not_le.mpr h)

theorem sizeCmp_asc_eq (dp : String → Option Int) (a b : ResultRecord) :
    getResultsComparator dp "size" (some "asc") a b =
      jsOr ((a.approxBytes : Int) - (b.approxBytes : Int))
        (jsOr ((b.subdeps : Int) - (a.subdeps : Int))
          (localeCmp a.name b.name)) := by
  simp [getResultsComparator, getEffectiveSortDirection]

theorem sizeCmp_desc_eq (dp : String → Option Int) (a b : ResultRecord) :
    getResultsComparator dp "size" (some "desc") a b =
      jsOr ((b.approxBytes : Int) - (a.approxBytes : Int))
        (jsOr ((b.subdeps : Int) - (a.subdeps : Int))
          (localeCmp a.name b.name)) := by
  simp [getResultsComparator, getEffectiveSortDirection]

theorem sizeAsc_le_iff (dp : String → Option Int) (a b : ResultRecord) :
    recordLE dp "size" (some "asc") a b = true ↔
      (a.approxBytes < b.approxBytes ∨ (a.approxBytes = b.approxBytes ∧
        (b.subdeps < a.subdeps ∨ (a.subdeps = b.subdeps ∧
          a.name ≤ b.name)))) := by
  rw [recordLE, decide_eq_true_eq, sizeCmp_asc_eq, jsOr_le_zero,
    jsOr_le_zero, localeCmp_le_zero]
  constructor
  · rintro (h | ⟨h0, h1 | ⟨h2, hn⟩⟩)
    · left; omega
    · right; exact ⟨by omega, Or.inl (by omega)⟩
    · right; exact ⟨by omega, Or.inr ⟨by omega, hn⟩⟩
  · rintro (h | ⟨h0, h1 | ⟨h2, hn⟩⟩)
    · left; omega
    · right; exact ⟨by omega, Or.inl (by omega)⟩
    · right; exact ⟨by omega, Or.inr ⟨by omega, hn⟩⟩

theorem sizeDesc_le_iff (dp : String → Option Int) (a b : ResultRecord) :
    recordLE dp "size" (some "desc") a b = true ↔
      (b.approxBytes < a.approxBytes ∨ (b.approxBytes = a.approxBytes ∧
        (b.subdeps < a.subdeps ∨ (a.subdeps = b.subdeps ∧
          a.name ≤ b.name)))) := by
  rw [recordLE, decide_eq_true_eq, sizeCmp_desc_eq, jsOr_le_zero,
    jsOr_le_zero, localeCmp_le_zero]
  constructor
  · rintro (h | ⟨h0, h1 | ⟨h2, hn⟩⟩)
    · left; omega
    · right; exact ⟨by omega, Or.inl (by omega)⟩
    · right; exact ⟨by omega, Or.inr ⟨by omega, hn⟩⟩
  · rintro (h | ⟨h0, h1 | ⟨h2, hn⟩⟩)
    · left; omega
    · right; exact ⟨by omega, Or.inl (by omega)⟩
    · right; exact ⟨by omega, Or.inr ⟨by omega, hn⟩⟩

theorem sizeAsc_total (dp : String → Option Int) :
    ∀ a b, recordLE dp "size" (some "asc") a b = true ∨
      recordLE dp "size" (some "asc") b a = true := by
  intro a b
  rw [sizeAsc_le_iff, sizeAsc_le_iff]
  rcases Nat.lt_trichotomy a.approxBytes b.approxBytes with h | h | h
  · exact Or.inl (Or.inl h)
  · rcases Nat.lt_trichotomy a.subdeps b.subdeps with h2 | h2 | h2
    · exact Or.inr (Or.inr ⟨h.symm, Or.inl h2⟩)
    · rcases le_total a.name b.name with h3 | h3
      · exact Or.inl (Or.inr ⟨h, Or.inr ⟨h2, h3⟩⟩)
      · exact Or.inr (Or.inr ⟨h.symm, Or.inr ⟨h2.symm, h3⟩⟩)
    · exact Or.inl (Or.inr ⟨h, Or.inl h2⟩)
  · exact Or.inr (Or.inl h)

theorem sizeAsc_trans (dp : String → Option Int) :
    ∀ a b c, recordLE dp "size" (some "asc") a b = true →
      recordLE dp "size" (some "asc") b c = true →
      recordLE dp "size" (some "asc") a c = true := by
  intro a b c hab hbc
  rw [sizeAsc_le_iff] at hab hbc ⊢
  rcases hab with h1 | ⟨e1, h1⟩
  · rcases hbc with h2 | ⟨e2, _⟩
    · exact Or.inl (by omega)
    · exact Or.inl (by omega)
  · rcases hbc with h2 | ⟨e2, h2⟩
    · exact Or.inl (by omega)
    · refine Or.inr ⟨by omega, ?_⟩
      rcases h1 with h1 | ⟨f1, h1⟩
      · rcases h2 with h2 | ⟨f2, _⟩
        · exact Or.inl (by omega)
        · exact Or.inl (by omega)
      · rcases h2 with h2 | ⟨f2, h2⟩
        · exact Or.inl (by omega)
        · exact Or.inr ⟨by omega, le_trans h1 h2⟩

theorem sizeDesc_total (dp : String → Option Int) :
    ∀ a b, recordLE dp "size" (some "desc") a b = true ∨
      recordLE dp "size" (some "desc") b a = true := by
  intro a b
  rw [sizeDesc_le_iff, sizeDesc_le_iff]
  rcases Nat.lt_trichotomy a.approxBytes b.approxBytes with h | h | h
  · exact Or.inr (Or.inl h)
  · rcases Nat.lt_trichotomy a.subdeps b.subdeps with h2 | h2 | h2
    · exact Or.inr (Or.inr ⟨h, Or.inl h2⟩)
    · rcases le_total a.name b.name with h3 | h3
      · exact Or.inl (Or.inr ⟨h.symm, Or.inr ⟨h2, h3⟩⟩)
      · exact Or.inr (Or.inr ⟨h, Or.inr ⟨h2.symm, h3⟩⟩)
    · exact Or.inl (Or.inr ⟨h.symm, Or.inl h2⟩)
  · exact Or.inl (Or.inl h)

theorem sizeDesc_trans (dp : String → Option Int) :
    ∀ a b c, recordLE dp "size" (some "desc") a b = true →
      recordLE dp "size" (some "desc") b c = true →
      recordLE dp "size" (some "desc") a c = true := by
  intro a b c hab hbc
  rw [sizeDesc_le_iff] at hab hbc ⊢
  rcases hab with h1 | ⟨e1, h1⟩
  · rcases hbc with h2 | ⟨e2, _⟩
    · exact Or.inl (by omega)
    · exact Or.inl (by omega)
  · rcases hbc with h2 | ⟨e2, h2⟩
    · exact Or.inl (by omega)
    · refine Or.inr ⟨by omega, ?_⟩
      rcases h1 with h1 | ⟨f1, h1⟩
      · rcases h2 with h2 | ⟨f2, _⟩
        · exact Or.inl (by omega)
        · exact Or.inl (by omega)
      · rcases h2 with h2 | ⟨f2, h2⟩
        · exact Or.inl (by omega)
        · exact Or.inr ⟨by omega, le_trans h1 h2⟩

/-- Strict byte order on result records; antisymmetric because two byte
counts cannot each be below the other. -/
def bytesLT (a b : ResultRecord) : Prop := a.approxBytes < b.approxBytes

instance : IsAntisymm ResultRecord bytesLT :=
  ⟨fun _ _ h1 h2 => absurd (Nat.lt_trans h1 h2) (lt_irrefl _)⟩

/-- C8: on a result list with pairwise distinct approxBytes values, the
list sorted with comparator size/asc is the exact reverse of the list
sorted with comparator size/desc. -/
theorem size_asc_reverse_of_desc (dp : String → Option Int)
    (l : List ResultRecord)
    (h : l.Pairwise (fun a b => a.approxBytes ≠ b.approxBytes)) :
    sortResults dp "size" (some "asc") l
      = (sortResults dp "size" (some "desc") l).reverse := by
  have permAsc := sortRecords_perm (recordLE dp "size" (some "asc")) l
  have permDesc := sortRecords_perm (recordLE dp "size" (some "desc")) l
  have hneAsc := (permAsc.pairwise_iff (fun hab => Ne.symm hab)).mpr h
  have hneDesc := (permDesc.pairwise_iff (fun hab => Ne.symm hab)).mpr h
  have hpwAsc := pairwise_sortRecords (recordLE dp "size" (some "asc"))
    (sizeAsc_total dp) (sizeAsc_trans dp) l
  have hpwDesc := pairwise_sortRecords (recordLE dp "size" (some "desc"))
    (sizeDesc_total dp) (sizeDesc_trans dp) l
  have hstrictAsc : (sortRecords (recordLE dp "size" (some "asc"))
      l).Pairwise bytesLT := by
    refine (hpwAsc.and hneAsc).imp ?_
    intro a b hab
    rcases (sizeAsc_le_iff dp a b).mp hab.1 with h3 | ⟨h3, _⟩
    · exact h3
    · exact absurd h3 hab.2
  have hneRev : ((sortRecords (recordLE dp "size" (some "desc"))
      l).reverse).Pairwise
      (fun a b : ResultRecord => a.approxBytes ≠ b.approxBytes) := by
    rw [List.pairwise_reverse]
    exact hneDesc.imp (fun hab => hab.symm)
  have hpwRev : ((sortRecords (recordLE dp "size" (some "desc"))
      l).reverse).Pairwise
      (fun a b => recordLE dp "size" (some "desc") b a = true) := by
    rw [List.pairwise_reverse]
    exact hpwDesc
  have hstrictRev : ((sortRecords (recordLE dp "size" (some "desc"))
      l).reverse).Pairwise bytesLT := by
    refine (hpwRev.and hneRev).imp ?_
    intro a b hab
    rcases (sizeDesc_le_iff dp b a).mp hab.1 with h3 | ⟨h3, _⟩
    · exact h3
    · exact absurd h3.symm hab.2.symm
  have hperm : List.Perm (sortRecords (recordLE dp "size" (some "asc")) l)
      ((sortRecords (recordLE dp "size" (some "desc")) l).reverse) :=
    permAsc.trans ((List.reverse_perm _).trans permDesc).symm
  exact List.eq_of_perm_of_sorted hperm hstrictAsc hstrictRev

/-- Demo fixture: a third record with a distinct byte count. -/
def recBig : ResultRecord :=
  ⟨"omega", "^3", "3.0.0", none, ["dev"], 2, some 1, 500⟩

/-- Witness for C8 at a concrete three-record list with pairwise distinct
byte counts. -/
theorem size_asc_reverse_of_desc_witness :
    sortResults demoParse "size" (some "asc") [recDated, recNoDate, recBig]
      = (sortResults demoParse "size" (some "desc")
          [recDated, recNoDate, recBig]).reverse :=
  size_asc_reverse_of_desc demoParse [recDated, recNoDate, recBig]
    (by decide)

/-- Top-level entries of the tree found for the given declared names, in
declaration order (the roots `collectAggregateApproxBytes` seeds). -/
def rootEntries (tree : DependencyNode) (names : List String) :
    List (String × DependencyNode) :=
  names.filterMap (fun n => (List.lookup n tree.deps).map (fun t => (n, t)))

/-- Every entry of every seeded top-level subtree. -/
def aggEntries (tree : DependencyNode) (names : List String) :
    List (String × DependencyNode) :=
  (rootEntries tree names).flatMap (fun r => entrySub r.1 r.2)

theorem aggFrames_eq (tree : DependencyNode) (names : List String) :
    names.filterMap
      (fun n => (List.lookup n tree.deps).map (fun t => (n, t, 0)))
      = (rootEntries tree names).map (fun r => (r.1, r.2, 0)) := by
  unfold rootEntries
  induction names with
  | nil => rfl
  | cons n rest ih =>
    cases h : List.lookup n tree.deps with
    | none => simp [List.filterMap_cons, h, ih]
    | some t => simp [List.filterMap_cons, h, ih]

theorem sum_toFinset_nodup (f : String → Nat) :
    ∀ (l : List String), l.Nodup → l.toFinset.sum f = (l.map f).sum := by
  intro l
  induction l with
  | nil => intro _; simp
  | cons a l ih =>
    intro h
    rw [List.nodup_cons] at h
    rw [List.toFinset_cons, Finset.sum_insert (by simpa using h.1),
      List.map_cons, List.sum_cons, ih h.2]

theorem sumBytes_eq_finset (fs : FileSystem)
    (pathOf : String → Option String)
    (V : List (String × DependencyNode × Nat))
    (hnodup : (V.map frameId).Nodup)
    (hpath : ∀ v ∈ V, v.2.1.path = pathOf (frameId v)) :
    sumBytes fs V = Finset.sum (idsOf V)
      (fun j => jsPathSize fs (pathOf j)) := by
  unfold sumBytes idsOf
  rw [sum_toFinset_nodup _ _ hnodup, List.map_map]
  exact congrArg List.sum (List.map_congr_left (fun v hv => by
    simp only [Function.comp_apply]
    rw [hpath v hv]))

theorem coherent_mono (E F : List (String × DependencyNode))
    (hsub : ∀ x ∈ F, x ∈ E) (h : Coherent E) : Coherent F :=
  fun e1 h1 e2 h2 => h e1 (hsub _ h1) e2 (hsub _ h2)

theorem mem_aggEntries (tree : DependencyNode) (names : List String)
    (r : String × DependencyNode) (hr : r ∈ rootEntries tree names)
    (e : String × DependencyNode) (he : e ∈ entrySub r.1 r.2) :
    e ∈ aggEntries tree names :=
  List.mem_flatMap.mpr ⟨r, hr, he⟩

theorem mem_rootEntries (tree : DependencyNode) (names : List String)
    (n : String) (t : DependencyNode) (hm : n ∈ names)
    (hl : List.lookup n tree.deps = some t) :
    (n, t) ∈ rootEntries tree names :=
  List.mem_filterMap.mpr ⟨n, hm, by rw [hl]; rfl⟩

theorem aggEntries_closed (tree : DependencyNode) (names : List String) :
    ∀ e ∈ aggEntries tree names, ∀ c ∈ e.2.deps,
      c ∈ aggEntries tree names := by
  intro e he c hc
  rcases List.mem_flatMap.mp he with ⟨r, hr, hin⟩
  exact mem_aggEntries tree names r hr c
    (entrySub_closed_aux (nodeWeight r.2) r.2 le_rfl r.1 e hin c hc)

theorem agg_ids (tree : DependencyNode) (names : List String)
    (hco : Coherent (aggEntries tree names)) :
    idsOf (visitLoop
        ((rootEntries tree names).map (fun r => (r.1, r.2, 0))).reverse ∅)
      = ((aggEntries tree names).map entryId).toFinset := by
  apply visit_ids_union (aggEntries tree names)
    (aggEntries_closed tree names) hco
  · intro s hs
    rw [List.mem_reverse] at hs
    rcases List.mem_map.mp hs with ⟨r, hr, rfl⟩
    exact mem_aggEntries tree names r hr (r.1, r.2)
      (mem_entrySub_self r.1 r.2)
  · intro s hs e he
    rw [List.mem_reverse] at hs
    rcases List.mem_map.mp hs with ⟨r, hr, rfl⟩
    exact mem_aggEntries tree names r hr e he
  · intro e he
    rcases List.mem_flatMap.mp he with ⟨r, hr, hin⟩
    exact ⟨(r.1, r.2, 0),
      List.mem_reverse.mpr (List.mem_map.mpr ⟨r, hr, rfl⟩), hin⟩

theorem subtree_bytes_eq (fs : FileSystem)
    (markers : Option OutdatedMarkers) (cache : SizeCache) (n : String)
    (t : DependencyNode) (pathOf : String → Option String)
    (hco : Coherent (entrySub n t)) (hcons : Consistent fs cache)
    (hpath : ∀ e ∈ entrySub n t, e.2.path = pathOf (entryId e)) :
    (collectSubtreeStats fs n (some t) cache markers).1.approxBytes
      = Finset.sum (entryIds n t) (fun j => jsPathSize fs (pathOf j)) := by
  show (statsLoop fs markers [(n, t, 0)] ∅ 0 0 cache).2.2.1 = _
  rcases statsLoop_bytes fs markers [(n, t, 0)] ∅ 0 0 cache hcons
    with ⟨h1, _⟩
  rw [h1, Nat.zero_add]
  have hframes : ∀ v ∈ visitLoop [(n, t, 0)] ∅,
      (v.1, v.2.1) ∈ entrySub n t := by
    intro v hv
    rcases visitLoop_origin [(n, t, 0)] ∅ v hv with ⟨s, hs, hin⟩
    rcases List.mem_cons.mp hs with h | h
    · subst h; exact hin
    · cases h
  rw [sumBytes_eq_finset fs pathOf _ (visitLoop_nodup [(n, t, 0)] ∅).1
    (fun v hv => hpath (v.1, v.2.1) (hframes v hv)),
    visit_ids_of_root n t hco]

/-- C2: a package reachable from two different top-level dependencies is
billed into the grand aggregate byte total exactly once — the aggregate is
a sum over the distinct identity keys of all seeded subtrees — while it
still contributes to each of the two top-level subtree byte totals, each
of which sums over its own subtree's distinct keys. -/
theorem aggregate_bills_shared_package_once (fs : FileSystem)
    (markers : Option OutdatedMarkers) (cache : SizeCache)
    (tree : DependencyNode) (names : List String)
    (pathOf : String → Option String)
    (hco : Coherent (aggEntries tree names))
    (hpath : ∀ e ∈ aggEntries tree names, e.2.path = pathOf (entryId e))
    (hcons : Consistent fs cache) (n1 n2 : String)
    (t1 t2 : DependencyNode) (_hne : n1 ≠ n2)
    (h1 : List.lookup n1 tree.deps = some t1)
    (h2 : List.lookup n2 tree.deps = some t2)
    (hm1 : n1 ∈ names) (hm2 : n2 ∈ names) (k : String)
    (hk1 : k ∈ entryIds n1 t1) (hk2 : k ∈ entryIds n2 t2) :
    (collectAggregateApproxBytes fs tree names cache).1
        = Finset.sum ((aggEntries tree names).map entryId).toFinset
            (fun j => jsPathSize fs (pathOf j)) ∧
    (collectSubtreeStats fs n1 (some t1) cache markers).1.approxBytes
        = Finset.sum (entryIds n1 t1) (fun j => jsPathSize fs (pathOf j)) ∧
    (collectSubtreeStats fs n2 (some t2) cache markers).1.approxBytes
        = Finset.sum (entryIds n2 t2) (fun j => jsPathSize fs (pathOf j)) ∧
    k ∈ ((aggEntries tree names).map entryId).toFinset := by
  have hr1 : (n1, t1) ∈ rootEntries tree names :=
    mem_rootEntries tree names n1 t1 hm1 h1
  have hr2 : (n2, t2) ∈ rootEntries tree names :=
    mem_rootEntries tree names n2 t2 hm2 h2
  have hsub1 : ∀ x ∈ entrySub n1 t1, x ∈ aggEntries tree names :=
    fun x hx => mem_aggEntries tree names (n1, t1) hr1 x hx
  have hsub2 : ∀ x ∈ entrySub n2 t2, x ∈ aggEntries tree names :=
    fun x hx => mem_aggEntries tree names (n2, t2) hr2 x hx
  refine ⟨?_, ?_, ?_, ?_⟩
  · show (aggLoop fs (names.filterMap (fun n =>
      (List.lookup n tree.deps).map (fun t => (n, t, 0)))).reverse
        ∅ 0 cache).1 = _
    rw [aggFrames_eq]
    rcases aggLoop_spec fs
      ((rootEntries tree names).map (fun r => (r.1, r.2, 0))).reverse
      ∅ 0 cache hcons with ⟨ha, _⟩
    rw [ha, Nat.zero_add]
    have hframes : ∀ v ∈ visitLoop
        ((rootEntries tree names).map (fun r => (r.1, r.2, 0))).reverse ∅,
        (v.1, v.2.1) ∈ aggEntries tree names := by
      intro v hv
      rcases visitLoop_origin _ ∅ v hv with ⟨s, hs, hin⟩
      rw [List.mem_reverse] at hs
      rcases List.mem_map.mp hs with ⟨r, hr, rfl⟩
      exact mem_aggEntries tree names r hr _ hin
    rw [sumBytes_eq_finset fs pathOf _ (visitLoop_nodup _ ∅).1
      (fun v hv => hpath (v.1, v.2.1) (hframes v hv)),
      agg_ids tree names hco]
  · exact subtree_bytes_eq fs markers cache n1 t1 pathOf
      (coherent_mono _ _ hsub1 hco) hcons
      (fun e he => hpath e (hsub1 e he))
  · exact subtree_bytes_eq fs markers cache n2 t2 pathOf
      (coherent_mono _ _ hsub2 hco) hcons
      (fun e he => hpath e (hsub2 e he))
  · rw [List.mem_toFinset]
    have hk := List.mem_toFinset.mp hk1
    rcases List.mem_map.mp hk with ⟨e, he, rfl⟩
    exact List.mem_map.mpr ⟨e, hsub1 e he, rfl⟩

/-- Demo fixture: the identity-key-to-install-path map of the demo tree. -/
def pathOfDemo : String → Option String := fun j =>
  if j = "alpha@1.0.0" then some "/nm/alpha"
  else if j = "beta@1.0.0" then some "/nm/beta"
  else if j = "gamma@1.0.0" then some "/nm/gamma"
  else if j = "shared@1.0.0" then some "/nm/shared"
  else none

/-- Demo fixture: the declared top-level names of the demo tree. -/
def namesDemo : List String := ["alpha", "beta", "gamma"]

/-- Witness for C2 at the demo tree, whose shared package is reachable
from both beta and gamma. -/
theorem aggregate_bills_shared_package_once_witness :
    (collectAggregateApproxBytes fsDemo treeDemo namesDemo []).1
        = Finset.sum ((aggEntries treeDemo namesDemo).map entryId).toFinset
            (fun j => jsPathSize fsDemo (pathOfDemo j)) ∧
    (collectSubtreeStats fsDemo "beta" (some tBeta) [] none).1.approxBytes
        = Finset.sum (entryIds "beta" tBeta)
            (fun j => jsPathSize fsDemo (pathOfDemo j)) ∧
    (collectSubtreeStats fsDemo "gamma" (some tGamma) [] none).1.approxBytes
        = Finset.sum (entryIds "gamma" tGamma)
            (fun j => jsPathSize fsDemo (pathOfDemo j)) ∧
    "shared@1.0.0" ∈ ((aggEntries treeDemo namesDemo).map entryId).toFinset :=
  aggregate_bills_shared_package_once fsDemo none [] treeDemo namesDemo
    pathOfDemo (by decide) (by decide) (fun p v h => nomatch h)
    "beta" "gamma" tBeta tGamma (by decide) (by decide) (by decide)
    (by decide) (by decide) "shared@1.0.0" (by decide) (by decide)

/-- Modelled from the spec: the audit severity scale of the audit
extractor contract, which is missing from src/ (only the test suite
references `collectAuditMarkers`, `runNpmAudit` and the audit-aware
`collectSubtreeStats`).  Severity ranks follow the fixed total order
low < moderate < high < critical; anything else is malformed and
skipped. -/
def severityRank (s : String) : Option Nat :=
  if s = "low" then some 0
  else if s = "moderate" then some 1
  else if s = "high" then some 2
  else if s = "critical" then some 3
  else none

/-- Modelled from the spec: the audit marker set, a mapping from absolute
install path to numeric severity rank and a mapping from package name to
numeric severity rank. -/
structure AuditMarkers : Type where
  pathRanks : List (String × Nat)
  packageRanks : List (String × Nat)

/-- Record a rank for a key, retaining the highest rank seen on
collision. -/
def insertRank (m : List (String × Nat)) (k : String) (r : Nat) :
    List (String × Nat) :=
  (k, match List.lookup k m with
      | some r0 => max r0 r
      | none => r) :: m

/-- Modelled from the spec: one record of the `vulnerabilities` dataset —
an optional package name, a severity level and the node locations it was
found at. -/
structure VulnRecord : Type where
  name : Option String
  severity : String
  nodes : List String

/-- Modelled from the spec: the audit extractor `collectAuditMarkers`,
missing from src/.  Walks the vulnerabilities mapping; for each record
with a recognized severity it ranks the package (field name, else the
mapping key) and every node location resolved below the root; malformed
records are skipped silently. -/
def collectAuditMarkers (root : String) :
    List (String × VulnRecord) → AuditMarkers
  | [] => ⟨[], []⟩
  | (key, rec) :: rest =>
    let acc := collectAuditMarkers root rest
    match severityRank rec.severity with
    | none => acc
    | some r =>
      { pathRanks := rec.nodes.foldl
          (fun m loc => insertRank m (resolvePath root loc) r) acc.pathRanks,
        packageRanks :=
          insertRank acc.packageRanks (rec.name.getD key) r }

/-- Modelled from the spec: audit severity lookup for one tree node; a
path match takes precedence over the package-name match. -/
def auditRankOfNode (name : String) (t : DependencyNode)
    (markers : Option AuditMarkers) : Option Nat :=
  match markers with
  | none => none
  | some m =>
    match (match t.path with
           | some p =>
             if p = "" then none else List.lookup p m.pathRanks
           | none => none) with
    | some r => some r
    | none => List.lookup name m.packageRanks

/-- Running maximum of severity ranks; `none` means none found yet. -/
def bumpRank (m : Option Nat) (r : Nat) : Option Nat :=
  match m with
  | none => some r
  | some x => some (max x r)

/-- Modelled from the spec: the audit-aware per-package statistics of the
subtree aggregation. -/
structure SubtreeStatsAudit : Type where
  subdeps : Nat
  outdatedSubdeps : Nat
  auditSubdeps : Nat
  auditSeverityRank : Option Nat
  approxBytes : Nat
deriving DecidableEq, Repr

/-- Modelled from the spec: the audit-aware subtree worklist, identical to
`statsLoop` with, per first-visited node at depth above zero, an audit
marker check (path preferred over name) feeding a flagged counter and the
highest severity rank seen. -/
def auditLoop (fs : FileSystem) (markers : Option OutdatedMarkers)
    (audit : Option AuditMarkers) :
    List (String × DependencyNode × Nat) → Finset String → Nat → Nat →
    Option Nat → Nat → SizeCache →
    Finset String × Nat × Nat × Option Nat × Nat × SizeCache
  | [], seen, od, ac, am, bytes, cache => (seen, od, ac, am, bytes, cache)
  | (n, t, d) :: rest, seen, od, ac, am, bytes, cache =>
    if makeId n t.version ∈ seen then
      auditLoop fs markers audit rest seen od ac am bytes cache
    else
      let sized := getApproxPathSize fs t.path cache
      let found := if 0 < d then auditRankOfNode n t audit else none
      auditLoop fs markers audit
        ((t.deps.map (fun e => (e.1, e.2, d + 1))).reverse ++ rest)
        (insert (makeId n t.version) seen)
        (if 0 < d ∧ isOutdatedNode n t markers then od + 1 else od)
        (match found with | some _ => ac + 1 | none => ac)
        (match found with | some r => bumpRank am r | none => am)
        (bytes + sized.1) sized.2
termination_by stack _ _ _ _ _ _ => stackWeight stack
decreasing_by
  · have := nodeWeight_pos t
    rw [stackWeight_cons]; omega
  · have := stackWeight_children t d rest
    rw [stackWeight_cons]; omega

/-- Modelled from the spec: the audit-aware `collectSubtreeStats`. -/
def collectSubtreeStatsAudit (fs : FileSystem) (name : String)
    (node : Option DependencyNode) (cache : SizeCache)
    (markers : Option OutdatedMarkers) (audit : Option AuditMarkers) :
    SubtreeStatsAudit × SizeCache :=
  match node with
  | none => (⟨0, 0, 0, none, 0⟩, cache)
  | some t =>
    let r := auditLoop fs markers audit [(name, t, 0)] ∅ 0 0 none 0 cache
    (⟨r.1.card - 1, r.2.1, r.2.2.1, r.2.2.2.1, r.2.2.2.2.1⟩, r.2.2.2.2.2)

/-- Count of first-visited frames at positive depth that carry an audit
rank. -/
def countAud (audit : Option AuditMarkers)
    (V : List (String × DependencyNode × Nat)) : Nat :=
  (V.filter (fun v => decide (0 < v.2.2) &&
    (auditRankOfNode v.1 v.2.1 audit).isSome)).length

/-- Audit ranks of the first-visited frames at positive depth, in visit
order. -/
def ranksOf (audit : Option AuditMarkers)
    (V : List (String × DependencyNode × Nat)) : List Nat :=
  V.filterMap (fun v =>
    if 0 < v.2.2 then auditRankOfNode v.1 v.2.1 audit else none)

/-- Fold of the running severity maximum over a rank list. -/
def foldBump (m : Option Nat) (l : List Nat) : Option Nat :=
  l.foldl bumpRank m

theorem countAud_cons (audit : Option AuditMarkers)
    (v : String × DependencyNode × Nat)
    (V : List (String × DependencyNode × Nat)) :
    countAud audit (v :: V) = countAud audit V +
      (if decide (0 < v.2.2) && (auditRankOfNode v.1 v.2.1 audit).isSome
       then 1 else 0) := by
  simp only [countAud, List.filter_cons]
  by_cases hb : (decide (0 < v.2.2) &&
      (auditRankOfNode v.1 v.2.1 audit).isSome) = true
  · simp [hb]
  · simp [hb]

theorem auditLoop_spec (fs : FileSystem) (markers : Option OutdatedMarkers)
    (audit : Option AuditMarkers) :
    ∀ (stack : List (String × DependencyNode × Nat)) (seen : Finset String)
    (od ac : Nat) (am : Option Nat) (b : Nat) (cache : SizeCache),
    (auditLoop fs markers audit stack seen od ac am b cache).1
        = seen ∪ idsOf (visitLoop stack seen) ∧
    (auditLoop fs markers audit stack seen od ac am b cache).2.2.1
        = ac + countAud audit (visitLoop stack seen) ∧
    (auditLoop fs markers audit stack seen od ac am b cache).2.2.2.1
        = foldBump am (ranksOf audit (visitLoop stack seen)) := by
  intro stack seen
  induction stack, seen using visitLoop.induct with
  | case1 seen =>
    intro od ac am b cache
    simp [auditLoop, visitLoop, idsOf, countAud, ranksOf, foldBump]
  | case2 n t d rest seen hmem ih =>
    intro od ac am b cache
    rw [auditLoop, visitLoop]
    simp only [if_pos hmem]
    exact ih od ac am b cache
  | case3 n t d rest seen hmem ih =>
    intro od ac am b cache
    rw [auditLoop, visitLoop]
    simp only [if_neg hmem]
    rcases ih (if 0 < d ∧ isOutdatedNode n t markers then od + 1 else od)
      (match (if 0 < d then auditRankOfNode n t audit else none) with
       | some _ => ac + 1 | none => ac)
      (match (if 0 < d then auditRankOfNode n t audit else none) with
       | some r => bumpRank am r | none => am)
      (b + (getApproxPathSize fs t.path cache).1)
      (getApproxPathSize fs t.path cache).2 with ⟨h1, h2, h3⟩
    refine ⟨?_, ?_, ?_⟩
    · rw [h1]
      simp only [idsOf, List.map_cons, List.toFinset_cons]
      ext k
      simp only [Finset.mem_union, Finset.mem_insert, frameId]
      tauto
    · rw [h2, countAud_cons]
      cases hf : (if 0 < d then auditRankOfNode n t audit else none) with
      | none =>
        have hb : (decide (0 < d) &&
            (auditRankOfNode n t audit).isSome) = false := by
          by_cases hd : 0 < d
          · rw [if_pos hd] at hf
            simp [hf]
          · simp [hd]
        simp only [hb, Bool.false_eq_true, if_false]
        omega
      | some r =>
        have hd : 0 < d := by
          by_contra hd
          rw [if_neg hd] at hf
          cases hf
        have hr : auditRankOfNode n t audit = some r := by
          rw [if_pos hd] at hf
          exact hf
        have hb : (decide (0 < d) &&
            (auditRankOfNode n t audit).isSome) = true := by
          simp [hd, hr]
        simp only [hb, if_true]
        omega
    · rw [h3]
      simp only [ranksOf, List.filterMap_cons]
      cases hf : (if 0 < d then auditRankOfNode n t audit else none) with
      | none => rfl
      | some r => rfl

theorem foldl_max_le_self (l : List Nat) : ∀ (a : Nat),
    a ≤ l.foldl max a := by
  induction l with
  | nil => intro a; exact le_rfl
  | cons b l ih =>
    intro a
    exact le_trans (le_max_left a b) (ih (max a b))

theorem foldl_max_le_mem (l : List Nat) : ∀ (a x : Nat), x ∈ l →
    x ≤ l.foldl max a := by
  induction l with
  | nil => intro a x hx; cases hx
  | cons b l ih =>
    intro a x hx
    rcases List.mem_cons.mp hx with h | h
    · subst h
      exact le_trans (le_max_right a x) (foldl_max_le_self l (max a x))
    · exact ih (max a b) x h

theorem foldl_max_mem (l : List Nat) : ∀ (a : Nat),
    l.foldl max a = a ∨ l.foldl max a ∈ l := by
  induction l with
  | nil => intro a; exact Or.inl rfl
  | cons b l ih =>
    intro a
    rcases ih (max a b) with h | h
    · rcases max_choice a b with h' | h'
      · exact Or.inl (h.trans h')
      · exact Or.inr (List.mem_cons.mpr (Or.inl (h.trans h')))
    · exact Or.inr (List.mem_cons_of_mem _ h)

theorem foldBump_some (l : List Nat) : ∀ (x : Nat),
    foldBump (some x) l = some (l.foldl max x) := by
  induction l with
  | nil => intro x; rfl
  | cons b l ih => intro x; exact ih (max x b)

theorem foldBump_none_cons (a : Nat) (l : List Nat) :
    foldBump none (a :: l) = some (l.foldl max a) :=
  foldBump_some l a

theorem length_filterMap_eq {α β : Type} (f : α → Option β)
    (l : List α) :
    (l.filterMap f).length = (l.filter (fun a => (f a).isSome)).length := by
  induction l with
  | nil => rfl
  | cons a l ih =>
    rw [List.filterMap_cons, List.filter_cons]
    cases hf : f a with
    | none => simp [hf, ih]
    | some b => simp [hf, ih]

theorem length_filter_comp {α β : Type} (f : α → β) (p : β → Bool)
    (l : List α) :
    ((l.map f).filter p).length = (l.filter (fun a => p (f a))).length := by
  induction l with
  | nil => rfl
  | cons a l ih =>
    rw [List.map_cons, List.filter_cons, List.filter_cons]
    cases hp : p (f a) with
    | true => simp [hp, ih]
    | false => simp [hp, ih]

theorem filterMap_congr_mem {α β : Type} (f g : α → Option β)
    (l : List α) (h : ∀ a ∈ l, f a = g a) :
    l.filterMap f = l.filterMap g := by
  induction l with
  | nil => rfl
  | cons a l ih =>
    rw [List.filterMap_cons, List.filterMap_cons,
      h a (List.mem_cons_self _ _),
      ih (fun x hx => h x (List.mem_cons_of_mem _ hx))]

/-- First-visit list of the traversal after the root has been visited. -/
def rootTail (name : String) (t : DependencyNode) :
    List (String × DependencyNode × Nat) :=
  visitLoop ((t.deps.map (fun e => (e.1, e.2, 0 + 1))).reverse ++ [])
    (insert (makeId name t.version) ∅)

theorem visit_root_unfold (name : String) (t : DependencyNode) :
    visitLoop [(name, t, 0)] ∅ = (name, t, 0) :: rootTail name t := by
  rw [visitLoop]
  simp [rootTail]

theorem rootTail_depth (name : String) (t : DependencyNode) :
    ∀ v ∈ rootTail name t, 0 < v.2.2 := by
  intro v hv
  have h1 : (1 : Nat) ≤ v.2.2 := by
    refine visitLoop_depth _ _ 1 ?_ v hv
    intro s hs
    rcases List.mem_append.mp hs with h | h
    · rcases List.mem_map.mp (List.mem_reverse.mp h) with ⟨c, _, hceq⟩
      subst hceq
      exact le_rfl
    · cases h
  omega

theorem rootTail_frames (name : String) (t : DependencyNode) :
    ∀ v ∈ rootTail name t, (v.1, v.2.1) ∈ entrySub name t := by
  intro v hv
  have hmem : v ∈ visitLoop [(name, t, 0)] ∅ := by
    rw [visit_root_unfold]
    exact List.mem_cons_of_mem _ hv
  rcases visitLoop_origin _ _ v hmem with ⟨s, hs, hin⟩
  rcases List.mem_cons.mp hs with h | h
  · subst h; exact hin
  · cases h

theorem rootTail_nodup (name : String) (t : DependencyNode) :
    ((rootTail name t).map frameId).Nodup ∧
      entryId (name, t) ∉ (rootTail name t).map frameId := by
  have h := (visitLoop_nodup [(name, t, 0)] ∅).1
  rw [visit_root_unfold, List.map_cons, List.nodup_cons] at h
  exact ⟨h.2, h.1⟩

theorem rootTail_finset (name : String) (t : DependencyNode)
    (hco : Coherent (entrySub name t)) :
    ((rootTail name t).map frameId).toFinset
      = (entryIds name t).erase (entryId (name, t)) := by
  have hids := visit_ids_of_root name t hco
  rw [visit_root_unfold] at hids
  have hins : insert (entryId (name, t))
      ((rootTail name t).map frameId).toFinset = entryIds name t := by
    rw [← hids]
    simp only [idsOf, List.map_cons, List.toFinset_cons]
    rfl
  rw [← hins, Finset.erase_insert
    (fun hmem => (rootTail_nodup name t).2 (List.mem_toFinset.mp hmem))]

theorem frameId_eq_entryId (v : String × DependencyNode × Nat) :
    entryId (v.1, v.2.1) = frameId v := rfl

theorem countAud_to_rankOf (name : String) (t : DependencyNode)
    (audit : Option AuditMarkers) (rankOf : String → Option Nat)
    (hrank : ∀ e ∈ entrySub name t,
      auditRankOfNode e.1 e.2 audit = rankOf (entryId e)) :
    countAud audit (visitLoop [(name, t, 0)] ∅)
      = ((rootTail name t).filter
          (fun v => (rankOf (frameId v)).isSome)).length := by
  rw [visit_root_unfold, countAud_cons]
  have hstep : (if decide (0 < ((name, t, 0) :
      String × DependencyNode × Nat).2.2) &&
      (auditRankOfNode (name, t, 0).1 (name, t, 0).2.1 audit).isSome
      then 1 else 0) = 0 := by
    simp
  rw [hstep, Nat.add_zero]
  show ((rootTail name t).filter _).length = _
  congr 1
  refine List.filter_congr ?_
  intro v hv
  have hd := rootTail_depth name t v hv
  have he := hrank (v.1, v.2.1) (rootTail_frames name t v hv)
  rw [frameId_eq_entryId] at he
  simp [hd, he]

theorem rank_filter_card (name : String) (t : DependencyNode)
    (rankOf : String → Option Nat) (hco : Coherent (entrySub name t)) :
    ((rootTail name t).filter
        (fun v => (rankOf (frameId v)).isSome)).length
      = (((entryIds name t).erase (entryId (name, t))).filter
          (fun k => (rankOf k).isSome = true)).card := by
  rw [← length_filter_comp frameId (fun k => (rankOf k).isSome)]
  have hnd : ((rootTail name t).map frameId).Nodup :=
    (rootTail_nodup name t).1
  rw [← List.toFinset_card_of_nodup
    (hnd.filter (fun k => (rankOf k).isSome)),
    List.toFinset_filter, rootTail_finset name t hco]

theorem ranksOf_to_rankOf (name : String) (t : DependencyNode)
    (audit : Option AuditMarkers) (rankOf : String → Option Nat)
    (hrank : ∀ e ∈ entrySub name t,
      auditRankOfNode e.1 e.2 audit = rankOf (entryId e)) :
    ranksOf audit (visitLoop [(name, t, 0)] ∅)
      = (rootTail name t).filterMap (fun v => rankOf (frameId v)) := by
  rw [visit_root_unfold]
  show ((name, t, 0) :: rootTail name t).filterMap _ = _
  rw [List.filterMap_cons]
  have hhead : (if 0 < ((name, t, 0) :
      String × DependencyNode × Nat).2.2
      then auditRankOfNode (name, t, 0).1 (name, t, 0).2.1 audit
      else none) = none := by
    simp
  rw [hhead]
  refine filterMap_congr_mem _ _ _ ?_
  intro v hv
  have hd := rootTail_depth name t v hv
  have he := hrank (v.1, v.2.1) (rootTail_frames name t v hv)
  rw [frameId_eq_entryId] at he
  simp [hd, he]

/-- C4 (audit aggregation modelled from the spec, the audit-aware code
being absent from src/): for a top-level dependency's node, the
aggregation computes — alongside the unique subdependency count — an
audit-flagged subdependency count equal to the number of distinct
non-root identity keys carrying a severity rank in the marker set (paths
and package names mapped to numeric ranks, path preferred), deduplicated
by identity key, and its reported severity is exactly the highest rank
among those flagged keys. -/
theorem audit_stats_dedup_and_max (fs : FileSystem)
    (markers : Option OutdatedMarkers) (audit : Option AuditMarkers)
    (cache : SizeCache) (name : String) (t : DependencyNode)
    (rankOf : String → Option Nat) (F : Finset String)
    (hco : Coherent (entrySub name t))
    (hrank : ∀ e ∈ entrySub name t,
      auditRankOfNode e.1 e.2 audit = rankOf (entryId e))
    (hFdef : F = ((entryIds name t).erase (entryId (name, t))).filter
      (fun k => (rankOf k).isSome = true)) :
    (collectSubtreeStatsAudit fs name (some t) cache markers
        audit).1.subdeps = (entryIds name t).card - 1 ∧
    (collectSubtreeStatsAudit fs name (some t) cache markers
        audit).1.auditSubdeps = F.card ∧
    ((collectSubtreeStatsAudit fs name (some t) cache markers
        audit).1.auditSeverityRank = none ↔ F = ∅) ∧
    ∀ rk, (collectSubtreeStatsAudit fs name (some t) cache markers
        audit).1.auditSeverityRank = some rk →
      (∃ k ∈ F, rankOf k = some rk) ∧
      ∀ k ∈ F, ∀ x, rankOf k = some x → x ≤ rk := by
  obtain ⟨hseen, hac, ham⟩ :=
    auditLoop_spec fs markers audit [(name, t, 0)] ∅ 0 0 none 0 cache
  have hcount : countAud audit (visitLoop [(name, t, 0)] ∅) = F.card := by
    rw [countAud_to_rankOf name t audit rankOf hrank,
      rank_filter_card name t rankOf hco, hFdef]
  have hRdef : ranksOf audit (visitLoop [(name, t, 0)] ∅)
      = (rootTail name t).filterMap (fun v => rankOf (frameId v)) :=
    ranksOf_to_rankOf name t audit rankOf hrank
  have hlenR : ((rootTail name t).filterMap
      (fun v => rankOf (frameId v))).length = F.card := by
    rw [length_filterMap_eq, rank_filter_card name t rankOf hco, hFdef]
  refine ⟨?_, ?_, ?_, ?_⟩
  · show (auditLoop fs markers audit [(name, t, 0)] ∅ 0 0 none 0
        cache).1.card - 1 = _
    rw [hseen, Finset.empty_union, visit_ids_of_root name t hco]
  · show (auditLoop fs markers audit [(name, t, 0)] ∅ 0 0 none 0
        cache).2.2.1 = _
    rw [hac, hcount, Nat.zero_add]
  · show (auditLoop fs markers audit [(name, t, 0)] ∅ 0 0 none 0
        cache).2.2.2.1 = none ↔ _
    rw [ham, hRdef]
    constructor
    · intro h
      cases hRc : (rootTail name t).filterMap
          (fun v => rankOf (frameId v)) with
      | nil =>
        have hc : F.card = 0 := by rw [← hlenR, hRc]; rfl
        exact Finset.card_eq_zero.mp hc
      | cons a rest =>
        rw [hRc, foldBump_none_cons] at h
        cases h
    · intro h
      have hc : ((rootTail name t).filterMap
          (fun v => rankOf (frameId v))).length = 0 := by
        rw [hlenR, h]
        rfl
      rw [List.length_eq_zero.mp hc]
      rfl
  · intro rk hrk
    rw [show (collectSubtreeStatsAudit fs name (some t) cache markers
        audit).1.auditSeverityRank = (auditLoop fs markers audit
        [(name, t, 0)] ∅ 0 0 none 0 cache).2.2.2.1 from rfl, ham,
      hRdef] at hrk
    cases hRc : (rootTail name t).filterMap
        (fun v => rankOf (frameId v)) with
    | nil =>
      rw [hRc] at hrk
      cases hrk
    | cons a rest =>
      rw [hRc, foldBump_none_cons] at hrk
      have hrkeq : rest.foldl max a = rk := Option.some.inj hrk
      constructor
      · have hmemk : rk ∈ a :: rest := by
          rcases foldl_max_mem rest a with h | h
          · exact List.mem_cons.mpr (Or.inl (by rw [← hrkeq, h]))
          · rw [← hrkeq]
            exact List.mem_cons_of_mem _ h
        rw [← hRc] at hmemk
        rcases List.mem_filterMap.mp hmemk with ⟨v, hv, hveq⟩
        refine ⟨frameId v, ?_, hveq⟩
        rw [hFdef, Finset.mem_filter]
        constructor
        · rw [← rootTail_finset name t hco]
          exact List.mem_toFinset.mpr (List.mem_map.mpr ⟨v, hv, rfl⟩)
        · simp [hveq]
      · intro k hk x hx
        rw [hFdef, Finset.mem_filter,
          ← rootTail_finset name t hco] at hk
        rcases List.mem_map.mp (List.mem_toFinset.mp hk.1)
          with ⟨v, hv, hveq⟩
        have hxR : x ∈ (rootTail name t).filterMap
            (fun v => rankOf (frameId v)) :=
          List.mem_filterMap.mpr ⟨v, hv, by rw [hveq, hx]⟩
        rw [hRc] at hxR
        rcases List.mem_cons.mp hxR with h | h
        · subst h
          rw [← hrkeq]
          exact foldl_max_le_self rest x
        · rw [← hrkeq]
          exact foldl_max_le_mem rest a x h

/-- Demo fixture: the shared package is audit-flagged at severity rank 2
(high) through its install path. -/
def auditDemo : AuditMarkers := ⟨[("/nm/shared", 2)], []⟩

/-- Demo fixture: identity-key-level audit ranks of the demo tree. -/
def rankOfDemo : String → Option Nat := fun k =>
  if k = "shared@1.0.0" then some 2 else none

/-- Witness for C4 at the demo tree: beta has exactly one flagged
subdependency (shared), with highest severity rank 2. -/
theorem audit_stats_dedup_and_max_witness :
    (collectSubtreeStatsAudit fsDemo "beta" (some tBeta) [] none
        (some auditDemo)).1.subdeps = (entryIds "beta" tBeta).card - 1 ∧
    (collectSubtreeStatsAudit fsDemo "beta" (some tBeta) [] none
        (some auditDemo)).1.auditSubdeps
      = ({"shared@1.0.0"} : Finset String).card ∧
    ((collectSubtreeStatsAudit fsDemo "beta" (some tBeta) [] none
        (some auditDemo)).1.auditSeverityRank = none ↔
      ({"shared@1.0.0"} : Finset String) = ∅) ∧
    ∀ rk, (collectSubtreeStatsAudit fsDemo "beta" (some tBeta) [] none
        (some auditDemo)).1.auditSeverityRank = some rk →
      (∃ k ∈ ({"shared@1.0.0"} : Finset String),
        rankOfDemo k = some rk) ∧
      ∀ k ∈ ({"shared@1.0.0"} : Finset String), ∀ x,
        rankOfDemo k = some x → x ≤ rk :=
  audit_stats_dedup_and_max fsDemo none (some auditDemo) [] "beta" tBeta
    rankOfDemo {"shared@1.0.0"} (by decide) (by decide) (by decide)
